import Mathlib

/-!
Verification development for the sqlmask repository (src/sqlmask/masker.py,
src/sqlmask/unmasker.py).  The Python code is shallowly embedded over
`List Char`; Python `str` is modelled as a list of characters, and the
character classes of the `re` module (`\w`, `\s`, `\d`, `isalnum`) are
modelled on their ASCII fragment, which is the fragment exercised by the
code and the spec's examples.  Python dict-of-str is modelled as an
association list in insertion order; CPython dicts preserve insertion
order and `d[k] = v` keeps the first-insertion position, which
`dictInsert` mirrors.
-/

namespace SqlMask

abbrev Lch := List Char

/-- The single-quote character, written by code point to keep sources plain. -/
def quoteC : Char := Char.ofNat 39

/-- ASCII model of the `\w` class of Python `re` (letters, digits, underscore). -/
def isWordC (c : Char) : Bool :=
  (97 ≤ c.toNat && c.toNat ≤ 122) || (65 ≤ c.toNat && c.toNat ≤ 90) ||
    (48 ≤ c.toNat && c.toNat ≤ 57) || c.toNat == 95

/-- ASCII decimal digit, the `\d` class. -/
def isDigitC (c : Char) : Bool := 48 ≤ c.toNat && c.toNat ≤ 57

/-- ASCII letter. -/
def isAlphaC (c : Char) : Bool :=
  (97 ≤ c.toNat && c.toNat ≤ 122) || (65 ≤ c.toNat && c.toNat ≤ 90)

/-- ASCII model of Python `str.isalnum` (letters or digits; underscore excluded). -/
def isAlnumC (c : Char) : Bool := isAlphaC c || isDigitC c

/-- ASCII model of the `\s` class / `str.isspace`. -/
def isSpaceC (c : Char) : Bool :=
  c.toNat == 32 || c.toNat == 9 || c.toNat == 10 ||
    c.toNat == 13 || c.toNat == 11 || c.toNat == 12

/-- First character of the IDENTIFIER pattern `[a-zA-Z_]`. -/
def identStartC (c : Char) : Bool := isAlphaC c || c.toNat == 95

/-- Continuation class of the IDENTIFIER pattern `[a-zA-Z0-9_.]`. -/
def identContC (c : Char) : Bool := isWordC c || c.toNat == 46

/-- The PUNCTUATION character set `[.,;:()=<>+\-*/!?@#$%^&[\]{}|\\]`. -/
def punctChars : Lch := (".,;:()=<>+-*/!?@#$%^&[]\x7b\x7d|\\").data

def isPunctC (c : Char) : Bool := punctChars.contains c

/-- ASCII model of Python `str.upper`, applied characterwise. -/
def pyUpper (s : Lch) : Lch := s.map Char.toUpper

/-! ### Decimal rendering of the counter (Python f-string `{n}`) -/

def digitC (n : Nat) : Char := Char.ofNat (48 + n)

def natStrAux : Nat → Nat → Lch
  | 0, _ => []
  | f + 1, n => if n < 10 then [digitC n] else natStrAux f (n / 10) ++ [digitC (n % 10)]

/-- Decimal representation of a natural number, most significant digit first. -/
def natStr (n : Nat) : Lch := natStrAux (n + 1) n

/-- Value of a digit string (used to invert `natStr`). -/
def evalD (s : Lch) : Nat := s.foldl (fun a c => 10 * a + (c.toNat - 48)) 0

theorem digitC_toNat {k : Nat} (h : k < 10) : (digitC k).toNat = 48 + k := by
  interval_cases k <;> rfl

theorem digitC_isDigit {k : Nat} (h : k < 10) : isDigitC (digitC k) = true := by
  interval_cases k <;> rfl

theorem natStrAux_fuel {f n : Nat} (h : n + 1 ≤ f) : natStrAux f n = natStr n := by
  induction n using Nat.strong_induction_on generalizing f with
  | _ n ih =>
    match f, h with
    | f + 1, h =>
      by_cases h10 : n < 10
      · simp [natStrAux, natStr, h10]
      · have hdiv : n / 10 < n := Nat.div_lt_self (by omega) (by omega)
        have h1 : natStrAux f (n / 10) = natStr (n / 10) := ih _ hdiv (by omega)
        have h2 : natStrAux n (n / 10) = natStr (n / 10) := ih _ hdiv (by omega)
        show (if n < 10 then [digitC n] else natStrAux f (n / 10) ++ [digitC (n % 10)]) =
          (if n < 10 then [digitC n] else natStrAux n (n / 10) ++ [digitC (n % 10)])
        rw [if_neg h10, if_neg h10, h1, h2]

theorem natStr_eq (n : Nat) :
    natStr n = if n < 10 then [digitC n] else natStr (n / 10) ++ [digitC (n % 10)] := by
  show (if n < 10 then [digitC n] else natStrAux n (n / 10) ++ [digitC (n % 10)]) = _
  by_cases h10 : n < 10
  · rw [if_pos h10, if_pos h10]
  · have hdiv : n / 10 < n := Nat.div_lt_self (by omega) (by omega)
    rw [if_neg h10, if_neg h10, natStrAux_fuel (by omega)]

theorem evalD_append_digit (s : Lch) (c : Char) :
    evalD (s ++ [c]) = 10 * evalD s + (c.toNat - 48) := by
  simp [evalD, List.foldl_append]

theorem evalD_natStr (n : Nat) : evalD (natStr n) = n := by
  induction n using Nat.strong_induction_on with
  | _ n ih =>
    rw [natStr_eq]
    by_cases h10 : n < 10
    · simp [h10, evalD, digitC_toNat h10]
    · have hdiv : n / 10 < n := Nat.div_lt_self (by omega) (by omega)
      rw [if_neg h10, evalD_append_digit, ih _ hdiv, digitC_toNat (Nat.mod_lt n (by omega))]
      omega

theorem natStr_inj {m n : Nat} (h : natStr m = natStr n) : m = n := by
  have := evalD_natStr m
  rw [h, evalD_natStr] at this
  omega

theorem natStr_all_digits (n : Nat) : ∀ c ∈ natStr n, isDigitC c = true := by
  induction n using Nat.strong_induction_on with
  | _ n ih =>
    rw [natStr_eq]
    by_cases h10 : n < 10
    · simp only [if_pos h10, List.mem_singleton]
      rintro c rfl
      exact digitC_isDigit h10
    · have hdiv : n / 10 < n := Nat.div_lt_self (by omega) (by omega)
      simp only [if_neg h10, List.mem_append, List.mem_singleton]
      rintro c (hc | rfl)
      · exact ih _ hdiv c hc
      · exact digitC_isDigit (Nat.mod_lt n (by omega))

theorem natStr_ne_nil (n : Nat) : natStr n ≠ [] := by
  rw [natStr_eq]
  by_cases h10 : n < 10 <;> simp [h10]

/-! ### Tokenizer (`SQLMasker._tokenize`)

The Python loop repeatedly applies `re.match` for an ordered list of
patterns and falls back to consuming one character.  Each pattern is
realised as a partial matcher returning the matched text and remainder.
-/

inductive TKind where
  | comment | strlit | ident | ws | punct | other
deriving DecidableEq, Repr

abbrev Token := TKind × Lch

/-- Scan for the first occurrence of the two-character closer of a block
comment, returning the consumed prefix (closer included) and the rest;
this realises the non-greedy `[\s\S]*?\*/` body of the COMMENT pattern. -/
def findClose : Lch → Option (Lch × Lch)
  | [] => none
  | [_] => none
  | a :: b :: r =>
      if a = '*' ∧ b = '/' then some ([a, b], r)
      else
        match findClose (b :: r) with
        | some (pre, rest) => some (a :: pre, rest)
        | none => none

/-- `re.match` of `/\*[\s\S]*?\*/`. -/
def tryBlock : Lch → Option (Lch × Lch)
  | a :: b :: r =>
      if a = '/' ∧ b = '*' then
        match findClose r with
        | some (pre, rest) => some (a :: b :: pre, rest)
        | none => none
      else none
  | _ => none

/-- `re.match` of `--[^\n]*`. -/
def tryLine : Lch → Option (Lch × Lch)
  | a :: b :: r =>
      if a = '-' ∧ b = '-' then
        some (a :: b :: r.takeWhile (fun c => !(c == '\n')), r.dropWhile (fun c => !(c == '\n')))
      else none
  | _ => none

/-- `re.match` of `'[^']*'`. -/
def tryStr : Lch → Option (Lch × Lch)
  | a :: r =>
      if a = quoteC then
        match r.dropWhile (fun c => !(c == quoteC)) with
        | b :: rest => some (a :: r.takeWhile (fun c => !(c == quoteC)) ++ [b], rest)
        | [] => none
      else none
  | [] => none

/-- Strip trailing dots: the trailing `\b` of the IDENTIFIER pattern makes the
greedy `[a-zA-Z0-9_.]*` back off any dots at the end of the run. -/
def dropTrailingDots (l : Lch) : Lch := (l.reverse.dropWhile (fun c => c == '.')).reverse

/-- `re.match` of `\b[a-zA-Z_][a-zA-Z0-9_.]*\b`. -/
def tryIdent : Lch → Option (Lch × Lch)
  | a :: r =>
      if identStartC a then
        let t := dropTrailingDots (a :: r.takeWhile identContC)
        some (t, (a :: r).drop t.length)
      else none
  | [] => none

/-- `re.match` of `\s+`. -/
def tryWs : Lch → Option (Lch × Lch)
  | a :: r =>
      if isSpaceC a then some (a :: r.takeWhile isSpaceC, r.dropWhile isSpaceC) else none
  | [] => none

/-- `re.match` of the single-character PUNCTUATION class. -/
def tryPunct : Lch → Option (Lch × Lch)
  | a :: r => if isPunctC a then some ([a], r) else none
  | [] => none

/-- One step of the tokenizer loop: the first pattern that matches wins, and
the fallback consumes one character as an OTHER token. -/
def matchTok : Lch → TKind × Lch × Lch
  | [] => (TKind.other, [], [])
  | s@(c :: r) =>
      match tryBlock s with
      | some (t, rest) => (TKind.comment, t, rest)
      | none =>
        match tryLine s with
        | some (t, rest) => (TKind.comment, t, rest)
        | none =>
          match tryStr s with
          | some (t, rest) => (TKind.strlit, t, rest)
          | none =>
            match tryIdent s with
            | some (t, rest) => (TKind.ident, t, rest)
            | none =>
              match tryWs s with
              | some (t, rest) => (TKind.ws, t, rest)
              | none =>
                match tryPunct s with
                | some (t, rest) => (TKind.punct, t, rest)
                | none => (TKind.other, [c], r)

/-- Tokenizer loop.  The first argument counts characters of the current
token still to be skipped, which keeps the recursion structural. -/
def tkGo : Nat → Lch → List Token
  | _, [] => []
  | n + 1, _ :: r => tkGo n r
  | 0, s@(_ :: r) =>
      let m := matchTok s
      (m.1, m.2.1) :: tkGo (m.2.1.length - 1) r

def tokenize (s : Lch) : List Token := tkGo 0 s

/-- Concatenation of the texts of a token list. -/
def catTexts (l : List Token) : Lch := (l.map Prod.snd).flatten

/-! ### Keyword table (`SQLMasker._keywords`)

Transcribed entry for entry from the Python set literal; duplicates of the
source (e.g. `INTERVAL`, `LEFT`, `RIGHT`, `DATE`) are harmless in a list
used only for membership. -/

def keywords : List String := [
  "SELECT", "FROM", "WHERE", "AND", "OR", "INSERT", "UPDATE", "DELETE",
  "JOIN", "LEFT", "RIGHT", "INNER", "OUTER", "CROSS", "GROUP", "ORDER",
  "BY", "HAVING", "LIMIT", "OFFSET", "AS", "ON", "VALUES", "INTO", "SET",
  "WITH", "OVER", "PARTITION", "DESC", "ASC", "CASE", "WHEN", "THEN", "ELSE", "END",
  "DISTINCT", "COUNT", "SUM", "AVG", "MIN", "MAX", "NOW", "TRUE", "FALSE",
  "STRING_AGG", "RANK", "INTERVAL", "NOT", "NULL", "IS", "IN", "BETWEEN",
  "CREATE", "TABLE", "DROP", "ALTER", "ADD", "COLUMN", "PRIMARY", "KEY",
  "FOREIGN", "REFERENCES", "INDEX", "UNIQUE", "DEFAULT", "CASCADE",
  "UNION", "INT", "ALL", "PIVOT", "FOR", "QUALIFY", "LIKE",
  "INT64", "NUMERIC", "FLOAT64", "BOOL", "STRING", "BYTES", "DATE",
  "DATETIME", "TIME", "TIMESTAMP", "ARRAY", "STRUCT", "GEOGRAPHY",
  "JSON", "BIGNUMERIC", "INTERVAL",
  "CAST", "SAFE_CAST", "PARSE_DATE", "PARSE_TIME", "PARSE_TIMESTAMP",
  "FORMAT", "CONCAT", "SUBSTR", "SUBSTRING", "TRIM", "LTRIM", "RTRIM",
  "REPLACE", "REGEXP_EXTRACT", "REGEXP_CONTAINS", "REGEXP_REPLACE",
  "LOWER", "UPPER", "INITCAP", "LPAD", "RPAD", "LEFT", "RIGHT",
  "CHAR_LENGTH", "CHARACTER_LENGTH", "LENGTH", "STARTS_WITH", "ENDS_WITH",
  "CONTAINS", "OCTET_LENGTH", "BYTE_LENGTH", "SPLIT", "ARRAY_LENGTH",
  "ARRAY_TO_STRING", "GENERATE_ARRAY", "GENERATE_DATE_ARRAY",
  "ARRAY_CONCAT", "ARRAY_REVERSE", "ARRAY", "UNNEST",
  "EXTRACT", "DATE", "DATETIME", "TIME", "TIMESTAMP",
  "CURRENT_DATE", "CURRENT_DATETIME", "CURRENT_TIME", "CURRENT_TIMESTAMP",
  "DATE_ADD", "DATE_SUB", "DATE_DIFF", "DATE_TRUNC", "DATE_FROM_UNIX_DATE",
  "FORMAT_DATE", "PARSE_DATE", "UNIX_DATE",
  "DATETIME_ADD", "DATETIME_SUB", "DATETIME_DIFF", "DATETIME_TRUNC",
  "FORMAT_DATETIME", "PARSE_DATETIME",
  "TIME_ADD", "TIME_SUB", "TIME_DIFF", "TIME_TRUNC",
  "FORMAT_TIME", "PARSE_TIME",
  "TIMESTAMP_ADD", "TIMESTAMP_SUB", "TIMESTAMP_DIFF", "TIMESTAMP_TRUNC",
  "FORMAT_TIMESTAMP", "PARSE_TIMESTAMP", "UNIX_SECONDS", "UNIX_MILLIS",
  "TIMESTAMP_SECONDS", "TIMESTAMP_MILLIS",
  "ABS", "SIGN", "IS_INF", "IS_NAN", "IEEE_DIVIDE", "RAND",
  "ROUND", "TRUNC", "CEIL", "CEILING", "FLOOR",
  "COS", "COSH", "ACOS", "ACOSH", "SIN", "SINH", "ASIN", "ASINH",
  "TAN", "TANH", "ATAN", "ATANH", "ATAN2",
  "DIV", "MOD", "POW", "POWER", "SQRT", "CBRT",
  "EXP", "LN", "LOG", "LOG10",
  "GREATEST", "LEAST", "IF", "IFNULL", "NULLIF", "COALESCE",
  "TO_JSON_STRING", "FROM_JSON", "JSON_EXTRACT", "JSON_EXTRACT_SCALAR",
  "JSON_QUERY", "JSON_VALUE", "JSON_EXTRACT_ARRAY",
  "ST_GEOGPOINT", "ST_MAKELINE", "ST_MAKEPOLYGON", "ST_MAKEPOLYGONORIENTED",
  "ST_DISTANCE", "ST_DWITHIN", "ST_EQUALS", "ST_INTERSECTS", "ST_CONTAINS",
  "ST_WITHIN", "ST_COVERS", "ST_COVEREDBY", "ST_DISJOINT", "ST_TOUCHES",
  "ST_INTERSECTSBOX", "ST_UNION_AGG", "ST_CENTROID", "ST_AREA", "ST_LENGTH",
  "ST_PERIMETER", "ST_BOUNDARY", "ST_BUFFER", "ST_CLOSESTPOINT",
  "ST_SIMPLIFY", "ST_SNAPTOGRID", "ST_DIFFERENCE", "ST_INTERSECTION",
  "ST_UNION", "ST_DIMENSION", "ST_GEOMETRYTYPE", "ST_NUMPOINTS",
  "ST_ISEMPTY", "ST_ISCOLLECTION", "ST_ASTEXT", "ST_ASGEOJSON",
  "SAFE", "ERROR", "ANY_VALUE", "COUNTIF", "LOGICAL_AND", "LOGICAL_OR",
  "APPROX_COUNT_DISTINCT", "APPROX_QUANTILES", "APPROX_TOP_COUNT",
  "APPROX_TOP_SUM", "HLL_COUNT.INIT", "HLL_COUNT.MERGE",
  "HLL_COUNT.MERGE_PARTIAL", "HLL_COUNT.EXTRACT",
  "BIT_COUNT", "BIT_AND", "BIT_OR", "BIT_XOR",
  "CORR", "COVAR_POP", "COVAR_SAMP", "STDDEV_POP", "STDDEV_SAMP",
  "STDDEV", "VAR_POP", "VAR_SAMP", "VARIANCE",
  "PERCENTILE_CONT", "PERCENTILE_DISC",
  "ARRAY_AGG", "STRING_AGG",
  "LAG", "LEAD", "FIRST_VALUE", "LAST_VALUE", "NTH_VALUE",
  "RANK", "DENSE_RANK", "PERCENT_RANK", "CUME_DIST", "NTILE", "ROW_NUMBER",
  "NET.IP_FROM_STRING", "NET.SAFE_IP_FROM_STRING", "NET.IP_TO_STRING",
  "NET.IP_NET_MASK", "NET.IP_TRUNC", "NET.IPV4_FROM_INT64", "NET.IPV4_TO_INT64",
  "NET.HOST", "NET.PUBLIC_SUFFIX", "NET.REG_DOMAIN",
  "ML.PREDICT", "ML.EVALUATE", "ML.ROC_CURVE", "ML.CONFUSION_MATRIX",
  "ML.FEATURE_INFO", "ML.WEIGHTS", "ML.TRANSFORM", "ML.GENERATE_TEXT",
  "SESSION_USER", "CURRENT_USER", "GENERATE_UUID", "MD5", "SHA1", "SHA256",
  "SHA512", "FARM_FINGERPRINT", "TO_BASE32", "TO_BASE64", "FROM_BASE32",
  "FROM_BASE64", "TO_HEX", "FROM_HEX"]

/-- `token_value.upper() in self._keywords`. -/
def isKeyword (v : Lch) : Bool := keywords.contains (String.mk (pyUpper v))

/-! ### Masking engine state and `SQLMasker.encode` -/

structure MState where
  counter : Nat
  mapping : List (Lch × Lch)
deriving DecidableEq, Repr

/-- Fresh engine state: `self._counter = 1`, `self._mapping = {}`. -/
def fresh : MState := ⟨1, []⟩

/-- Dictionary lookup on the insertion-ordered association list. -/
def mlookup (m : List (Lch × Lch)) (k : Lch) : Option Lch :=
  (m.find? (fun p => p.1 == k)).map (fun p => p.2)

/-- Identifier placeholder `m<n>`. -/
def mPh (n : Nat) : Lch := 'm' :: natStr n

/-- String-literal placeholder `'m<n>'`. -/
def sPh (n : Nat) : Lch := quoteC :: 'm' :: natStr n ++ [quoteC]

/-- Line-comment placeholder `--COMMENT<n>`. -/
def lcPh (n : Nat) : Lch := ("--COMMENT").data ++ natStr n

/-- Block-comment placeholder `/*COMMENT<n>*/`. -/
def bcPh (n : Nat) : Lch := ("/*COMMENT").data ++ natStr n ++ ("*/").data

/-- The shared lookup-or-assign step: if the original is unmapped, assign the
placeholder built from the current counter, append it to the mapping and
bump the counter; either way emit the mapped value. -/
def lookupOrAssign (st : MState) (k : Lch) (ph : Nat → Lch) : Lch × MState :=
  match mlookup st.mapping k with
  | some v => (v, st)
  | none => (ph st.counter, ⟨st.counter + 1, st.mapping ++ [(k, ph st.counter)]⟩)

/-- Placeholder form chosen for a comment token
(`--COMMENT<n>` when the text starts with `--`, else `/*COMMENT<n>*/`). -/
def commentPh (v : Lch) (n : Nat) : Lch :=
  if ('-' :: ['-']).isPrefixOf v then lcPh n else bcPh n

/-- Mask the dot-separated parts of a qualified identifier. -/
def maskParts (st : MState) : List Lch → List Lch × MState
  | [] => ([], st)
  | p :: ps =>
      let r := if isKeyword p then (p, st) else lookupOrAssign st p mPh
      let rest := maskParts r.2 ps
      (r.1 :: rest.1, rest.2)

/-- Processing of one token inside `SQLMasker.encode`. -/
def maskToken (st : MState) : Token → Lch × MState
  | (TKind.comment, v) => lookupOrAssign st v (commentPh v)
  | (TKind.strlit, v) => lookupOrAssign st v sPh
  | (TKind.ident, v) =>
      if isKeyword v then (v, st)
      else
        let parts := v.splitOn '.'
        if parts.length > 1 then
          let r := maskParts st parts
          (List.intercalate ['.'] r.1, r.2)
        else lookupOrAssign st v mPh
  | (_, v) => (v, st)

/-- The token loop of `encode`; the output is the concatenation of the
masked token texts. -/
def encodeToks (st : MState) : List Token → Lch × MState
  | [] => ([], st)
  | t :: ts =>
      let r := maskToken st t
      let rest := encodeToks r.2 ts
      (r.1 ++ rest.1, rest.2)

/-- `SQLMasker.encode` (with `reset_mapping=False`): returns the masked SQL
and the engine's mapping. -/
def encode (st : MState) (s : Lch) : Lch × MState := encodeToks st (tokenize s)

/-- `SQLMasker.reset`. -/
def resetSt (_ : MState) : MState := fresh

/-! ### String-rewriting primitives used by `decode` and `unmask`

Each scanner keeps the recursion structural over the subject string with a
skip counter for the characters of a match already accounted for. -/

/-- Python `str.replace(mask, rep)`: replace every non-overlapping
occurrence, scanning left to right.  All call sites pass a nonempty mask. -/
def raGo (mask rep : Lch) : Nat → Lch → Lch
  | _, [] => []
  | n + 1, _ :: r => raGo mask rep n r
  | 0, s@(c :: r) =>
      if mask.isPrefixOf s then rep ++ raGo mask rep (mask.length - 1) r
      else c :: raGo mask rep 0 r

def pyReplace (s mask rep : Lch) : Lch := raGo mask rep 0 s

/-- The word-boundary test on the left of a match of `\b<mask>\b`: satisfied
at the string edge or after a non-word character (the mask begins with a
word character at every call site). -/
def leftBd : Option Char → Bool
  | none => true
  | some c => !(isWordC c)

/-- The word-boundary test on the right of a match (the mask ends with a
word character at every call site). -/
def rightBd : Lch → Bool
  | [] => true
  | c :: _ => !(isWordC c)

/-- `re.sub(r'\b' + mask + r'\b', rep, s)`: replace every non-overlapping
whole-word occurrence, scanning left to right; `prev` is the character
before the scan position in the subject. -/
def subGo (mask rep : Lch) : Option Char → Nat → Lch → Lch
  | _, _, [] => []
  | _, n + 1, c :: r => subGo mask rep (some c) n r
  | prev, 0, s@(c :: r) =>
      if mask.isPrefixOf s && leftBd prev && rightBd (s.drop mask.length) then
        rep ++ subGo mask rep (some c) (mask.length - 1) r
      else c :: subGo mask rep (some c) 0 r

def pySubWB (mask rep s : Lch) : Lch := subGo mask rep none 0 s

/-- One attempt of the comment-placeholder regex
`(/\*COMMENT\d+\*/|--COMMENT\d+)` at the current position. -/
def matchCPat (s : Lch) : Option Lch :=
  let blk :=
    if ("/*COMMENT").data.isPrefixOf s then
      let r := s.drop 9
      let ds := r.takeWhile isDigitC
      if ds ≠ [] ∧ ("*/").data.isPrefixOf (r.drop ds.length) then
        some (("/*COMMENT").data ++ ds ++ ("*/").data)
      else none
    else none
  match blk with
  | some m => some m
  | none =>
    if ("--COMMENT").data.isPrefixOf s then
      let ds := (s.drop 9).takeWhile isDigitC
      if ds ≠ [] then some (("--COMMENT").data ++ ds) else none
    else none

/-- One attempt of the string-placeholder regex `'m\d+'`. -/
def matchSPat (s : Lch) : Option Lch :=
  if (quoteC :: ['m']).isPrefixOf s then
    let ds := (s.drop 2).takeWhile isDigitC
    if ds ≠ [] ∧ [quoteC].isPrefixOf (s.drop (2 + ds.length)) then
      some (quoteC :: 'm' :: ds ++ [quoteC])
    else none
  else none

/-- `re.finditer` for a matcher: collect the non-overlapping matches left to
right (every match of both placeholder patterns is nonempty). -/
def fiGo (pat : Lch → Option Lch) : Nat → Lch → List Lch
  | _, [] => []
  | n + 1, _ :: r => fiGo pat n r
  | 0, s@(_ :: r) =>
      match pat s with
      | some m => m :: fiGo pat (m.length - 1) r
      | none => fiGo pat 0 r

def finditer (pat : Lch → Option Lch) (s : Lch) : List Lch := fiGo pat 0 s

/-- Python dict assignment `d[k] = v`: overwrite in place, else append. -/
def dictInsert (k v : Lch) : List (Lch × Lch) → List (Lch × Lch)
  | [] => [(k, v)]
  | (a, b) :: r => if a == k then (a, v) :: r else (a, b) :: dictInsert k v r

/-- `{v: k for k, v in mapping.items()}`. -/
def revMap (m : List (Lch × Lch)) : List (Lch × Lch) :=
  m.foldl (fun acc p => dictInsert p.2 p.1 acc) []

/-- Stable insertion for `sorted(key=len, reverse=True)`. -/
def insDesc (x : Lch) : List Lch → List Lch
  | [] => [x]
  | y :: ys => if y.length > x.length then y :: insDesc x ys else x :: y :: ys

/-- Python `sorted(l, key=len, reverse=True)` (stable). -/
def sortDesc : List Lch → List Lch
  | [] => []
  | x :: xs => insDesc x (sortDesc xs)

/-- `SQLMasker.decode`: invert the mapping, then run the comment pass, the
string-literal pass and the whole-word identifier pass, in that order.  The
two `finditer` passes iterate over a snapshot of the subject and
conditionally `str.replace` on the live result, exactly as the source. -/
def decode (masked : Lch) (mapping : List (Lch × Lch)) : Lch :=
  let rev := revMap mapping
  let r1 := (finditer matchCPat masked).foldl
    (fun r mk => match mlookup rev mk with
      | some o => pyReplace r mk o
      | none => r) masked
  let r2 := (finditer matchSPat r1).foldl
    (fun r mk => match mlookup rev mk with
      | some o => pyReplace r mk o
      | none => r) r1
  let ids := sortDesc ((rev.map (fun p => p.1)).filter
    (fun m => (['m']).isPrefixOf m && !((quoteC :: ['m']).isPrefixOf m)))
  ids.foldl
    (fun r mk => match mlookup rev mk with
      | some o => pySubWB mk o r
      | none => r) r2

/-! ### `SQLUnmasker` (generic text variant) -/

structure Unmasker where
  mapping : List (Lch × Lch)
  rev : List (Lch × Lch)
  direct : List (Lch × Lch)
deriving Repr

/-- The double-quote character. -/
def dquoteC : Char := Char.ofNat 34

/-- `SQLUnmasker._precompute_replacements`: for each masked value, longest
first, record the bare, single-quoted and double-quoted replacement forms. -/
def precompute (rev : List (Lch × Lch)) : List (Lch × Lch) :=
  (sortDesc (rev.map (fun p => p.1))).foldl
    (fun d mid => match mlookup rev mid with
      | some o =>
          dictInsert (dquoteC :: mid ++ [dquoteC]) (dquoteC :: o ++ [dquoteC])
            (dictInsert (quoteC :: mid ++ [quoteC]) (quoteC :: o ++ [quoteC])
              (dictInsert mid o d))
      | none => d) []

/-- `SQLUnmasker.__init__` with a mapping object (`if mapping:` is false for
an empty dict, leaving all three tables empty). -/
def mkUnmasker (mapping : List (Lch × Lch)) : Unmasker :=
  if mapping = [] then ⟨[], [], []⟩
  else
    let rev := revMap mapping
    ⟨mapping, rev, precompute rev⟩

/-- Python `str.split(sep)` for a nonempty separator. -/
def psGo (sep : Lch) : Nat → Lch → Lch → List Lch
  | _, acc, [] => [acc]
  | n + 1, acc, _ :: r => psGo sep n acc r
  | 0, acc, s@(c :: r) =>
      if sep.isPrefixOf s then acc :: psGo sep (sep.length - 1) [] r
      else psGo sep 0 (acc ++ [c]) r

def pySplit (sep s : Lch) : List Lch := psGo sep 0 [] s

/-- The part-rejoining loop of `SQLUnmasker.unmask`: each separator site is
replaced when the rebuilt prefix is empty or ends in a space or non-alphanumeric
character, otherwise the pattern itself is put back. -/
def rebuildGo (pat rep : Lch) : Lch → List Lch → Lch
  | acc, [] => acc
  | acc, p :: ps =>
      let ok := match acc.getLast? with
        | none => true
        | some c => isSpaceC c || !(isAlnumC c)
      rebuildGo pat rep (acc ++ (if ok then rep else pat) ++ p) ps

def rebuild (pat rep : Lch) : List Lch → Lch
  | [] => []
  | p :: ps => rebuildGo pat rep p ps

/-- `SQLUnmasker.unmask`: empty input is returned as is; a whole-string
match of the reverse mapping returns the original directly; otherwise each
precomputed pattern is split on and conditionally rejoined (`len(parts) > 1`
is equivalent to the source's `pattern in result` guard). -/
def unmask (u : Unmasker) (t : Lch) : Lch :=
  if t = [] then t
  else match mlookup u.rev t with
  | some o => o
  | none =>
      u.direct.foldl (fun res pr =>
        let parts := pySplit pr.1 res
        if parts.length > 1 then rebuild pr.1 pr.2 parts else res) t

/-- `SQLUnmasker.unmask_list`. -/
def unmaskList (u : Unmasker) (l : List Lch) : List Lch := l.map (unmask u)

/-! ### Mapping continuation (`SQLMasker.__init__` with an existing mapping) -/

/-- Python `str.strip(chars)`: drop characters of the set from both ends. -/
def pyStrip (cs : Lch) (s : Lch) : Lch :=
  ((s.dropWhile (fun c => cs.contains c)).reverse.dropWhile (fun c => cs.contains c)).reverse

/-- Python `int(s)` on an optionally signed digit string (the only shapes
that can reach the counter scan; whitespace and underscore forms of the
Python integer literal are not modelled). -/
def pyInt? (s : Lch) : Option Int :=
  let core : Int × Lch :=
    match s with
    | c :: r => if c = '+' then (1, r) else if c = '-' then (-1, r) else (1, s)
    | [] => (1, [])
  if core.2 ≠ [] ∧ core.2.all isDigitC then some (core.1 * evalD core.2) else none

/-- Python `sub in s` on strings: substring containment. -/
def containsSeq (pat : Lch) : Lch → Bool
  | [] => pat.isPrefixOf []
  | s@(_ :: r) => pat.isPrefixOf s || containsSeq pat r

/-- The per-value branch of the counter scan in `__init__`. -/
def counterOfValue (v : Lch) : Option Int :=
  if (quoteC :: ['m']).isPrefixOf v ∧ [quoteC].isSuffixOf v then
    pyInt? (pyStrip [quoteC, 'm'] v)
  else if (['m']).isPrefixOf v then
    pyInt? (v.drop 1)
  else if ("--COMMENT").data.isPrefixOf v ∨ containsSeq ("COMMENT").data v then
    pyInt? (pyReplace (pyReplace (pyReplace v ("--COMMENT").data []) ("/*COMMENT").data []) ("*/").data [])
  else none

/-- `max_counter` after scanning all values of the supplied mapping
(unparseable values raise `ValueError` and are skipped). -/
def maxCounter (mp : List (Lch × Lch)) : Int :=
  mp.foldl (fun acc p => match counterOfValue p.2 with
    | some k => max acc k
    | none => acc) 0

/-- `SQLMasker.__init__(existing_mapping)`: an empty dict is falsy and
leaves the fresh state; otherwise the mapping is copied and the counter set
past the largest value found (or left at 1). -/
def initState (mp : List (Lch × Lch)) : MState :=
  if mp = [] then fresh
  else ⟨if maxCounter mp > 0 then (maxCounter mp + 1).toNat else 1, mp⟩

/-! ### Session folds -/

/-- A sequence of `encode` calls on one engine. -/
def runEnc (l : List Lch) : MState := l.foldl (fun st s => (encode st s).2) fresh

inductive Op where
  | enc (s : Lch)
  | reset

/-- A sequence of `encode` and `reset` calls on one engine built fresh. -/
def runOps (l : List Op) : MState :=
  l.foldl (fun st op => match op with
    | Op.enc s => (encode st s).2
    | Op.reset => resetSt st) fresh

/-- Modelled from the spec: `SQLMasker.encode_comments_only` is called from
`csv_processor.mask_comments_only` but its definition is not part of the
sources under `src/`; the spec specifies an identical traversal to `encode`
in which only Comment tokens are substituted and String and Identifier
tokens always pass through verbatim. -/
def maskTokenCO (st : MState) : Token → Lch × MState
  | (TKind.comment, v) => lookupOrAssign st v (commentPh v)
  | (_, v) => (v, st)

/-- Modelled from the spec: the token loop of `encode_comments_only`. -/
def encodeToksCO (st : MState) : List Token → Lch × MState
  | [] => ([], st)
  | t :: ts =>
      let r := maskTokenCO st t
      let rest := encodeToksCO r.2 ts
      (r.1 ++ rest.1, rest.2)

/-- Modelled from the spec: `encode_comments_only(sql) -> (masked, mapping)`. -/
def encodeCO (st : MState) (s : Lch) : Lch × MState := encodeToksCO st (tokenize s)

/-! ## Tokenizer lemmas -/

theorem findClose_spec {l : Lch} :
    ∀ {pre rest : Lch}, findClose l = some (pre, rest) → pre ++ rest = l ∧ pre ≠ [] := by
  induction l with
  | nil => intro pre rest h; simp [findClose] at h
  | cons a l ih =>
    intro pre rest h
    cases l with
    | nil => simp [findClose] at h
    | cons b r =>
      rw [findClose] at h
      by_cases hab : a = '*' ∧ b = '/'
      · rw [if_pos hab] at h
        cases h
        simp
      · rw [if_neg hab] at h
        match hfc : findClose (b :: r) with
        | some (pre', rest') =>
            rw [hfc] at h
            obtain ⟨h1, h2⟩ := ih hfc
            cases h
            simp_all
        | none => rw [hfc] at h; cases h

theorem tryBlock_spec {s t rest : Lch} (h : tryBlock s = some (t, rest)) :
    t ++ rest = s ∧ t ≠ [] := by
  match s with
  | [] => simp [tryBlock] at h
  | [a] => simp [tryBlock] at h
  | a :: b :: r =>
      rw [tryBlock] at h
      by_cases hab : a = '/' ∧ b = '*'
      · rw [if_pos hab] at h
        match hfc : findClose r with
        | some (pre, rest') =>
            rw [hfc] at h
            obtain ⟨h1, _⟩ := findClose_spec hfc
            cases h
            simp_all
        | none => rw [hfc] at h; cases h
      · rw [if_neg hab] at h; cases h

theorem tryLine_spec {s t rest : Lch} (h : tryLine s = some (t, rest)) :
    t ++ rest = s ∧ t ≠ [] := by
  match s with
  | [] => simp [tryLine] at h
  | [a] => simp [tryLine] at h
  | a :: b :: r =>
      rw [tryLine] at h
      by_cases hab : a = '-' ∧ b = '-'
      · rw [if_pos hab] at h
        cases h
        simp [List.takeWhile_append_dropWhile]
      · rw [if_neg hab] at h; cases h

theorem tryStr_spec {s t rest : Lch} (h : tryStr s = some (t, rest)) :
    t ++ rest = s ∧ t ≠ [] := by
  match s with
  | [] => simp [tryStr] at h
  | a :: r =>
      rw [tryStr] at h
      by_cases ha : a = quoteC
      · rw [if_pos ha] at h
        match hdw : r.dropWhile (fun c => !(c == quoteC)) with
        | [] => rw [hdw] at h; cases h
        | b :: rest' =>
            rw [hdw] at h
            cases h
            refine ⟨?_, by simp⟩
            have htd := List.takeWhile_append_dropWhile (p := fun c => !(c == quoteC)) (l := r)
            rw [hdw] at htd
            simp only [List.cons_append, List.append_assoc, List.singleton_append,
              List.nil_append, List.cons.injEq, true_and]
            exact htd
      · rw [if_neg ha] at h
        cases h

theorem dropTrailingDots_pref (l : Lch) : dropTrailingDots l <+: l := by
  rw [dropTrailingDots, ← List.reverse_reverse l]
  exact (List.reverse_prefix).2 (by simpa using List.dropWhile_suffix (l := l.reverse) (p := fun c => c == '.'))

theorem dropWhile_append_singleton_ne {p : Char → Bool} {l : Lch} {a : Char} (ha : p a = false) :
    (l ++ [a]).dropWhile p ≠ [] := by
  induction l with
  | nil => simp [List.dropWhile, ha]
  | cons c l ih =>
      by_cases hc : p c
      · simpa [List.dropWhile, hc] using ih
      · simp [List.dropWhile, hc]

theorem dropTrailingDots_ne_nil {a : Char} (l : Lch) (ha : ¬ a = '.') :
    dropTrailingDots (a :: l) ≠ [] := by
  rw [dropTrailingDots]
  simp only [ne_eq, List.reverse_eq_nil_iff]
  rw [List.reverse_cons]
  exact dropWhile_append_singleton_ne (by simpa using ha)

theorem tryIdent_spec {s t rest : Lch} (h : tryIdent s = some (t, rest)) :
    t ++ rest = s ∧ t ≠ [] := by
  match s with
  | [] => simp [tryIdent] at h
  | a :: r =>
      rw [tryIdent] at h
      by_cases ha : identStartC a
      · rw [if_pos ha] at h
        simp only [Option.some.injEq, Prod.mk.injEq] at h
        obtain ⟨rfl, rfl⟩ := h
        have hpre : dropTrailingDots (a :: r.takeWhile identContC) <+: a :: r := by
          refine (dropTrailingDots_pref _).trans ?_
          exact ⟨r.dropWhile identContC, by simp [List.takeWhile_append_dropWhile]⟩
        obtain ⟨u, hu⟩ := hpre
        constructor
        · conv_rhs => rw [← hu]
          rw [← hu, List.drop_left]
        · have hadot : ¬ a = '.' := by
            intro hcontra
            rw [hcontra] at ha
            simp [identStartC, isAlphaC] at ha
          exact dropTrailingDots_ne_nil _ hadot
      · rw [if_neg ha] at h; cases h

theorem tryWs_spec {s t rest : Lch} (h : tryWs s = some (t, rest)) :
    t ++ rest = s ∧ t ≠ [] := by
  match s with
  | [] => simp [tryWs] at h
  | a :: r =>
      rw [tryWs] at h
      by_cases ha : isSpaceC a
      · rw [if_pos ha] at h
        cases h
        simp [List.takeWhile_append_dropWhile]
      · rw [if_neg ha] at h; cases h

theorem tryPunct_spec {s t rest : Lch} (h : tryPunct s = some (t, rest)) :
    t ++ rest = s ∧ t ≠ [] := by
  match s with
  | [] => simp [tryPunct] at h
  | a :: r =>
      rw [tryPunct] at h
      by_cases ha : isPunctC a
      · rw [if_pos ha] at h; cases h; simp
      · rw [if_neg ha] at h; cases h

/-- The decisive matcher property: every produced token text is a nonempty
prefix whose removal leaves the returned remainder. -/
theorem matchTok_spec {s : Lch} (hs : s ≠ []) :
    (matchTok s).2.1 ++ (matchTok s).2.2 = s ∧ (matchTok s).2.1 ≠ [] := by
  match s with
  | [] => exact absurd rfl hs
  | c :: r =>
      rw [matchTok]
      match h1 : tryBlock (c :: r) with
      | some (t, rest) => exact tryBlock_spec h1
      | none =>
      match h2 : tryLine (c :: r) with
      | some (t, rest) => exact tryLine_spec h2
      | none =>
      match h3 : tryStr (c :: r) with
      | some (t, rest) => exact tryStr_spec h3
      | none =>
      match h4 : tryIdent (c :: r) with
      | some (t, rest) => exact tryIdent_spec h4
      | none =>
      match h5 : tryWs (c :: r) with
      | some (t, rest) => exact tryWs_spec h5
      | none =>
      match h6 : tryPunct (c :: r) with
      | some (t, rest) => exact tryPunct_spec h6
      | none => exact ⟨rfl, by simp⟩

theorem tkGo_skip (l : Lch) : ∀ n, tkGo n l = tkGo 0 (l.drop n) := by
  induction l with
  | nil => intro n; cases n <;> rfl
  | cons c r ih =>
      intro n
      cases n with
      | zero => rfl
      | succ n => rw [show tkGo (n + 1) (c :: r) = tkGo n r from rfl, ih n, List.drop_succ_cons]

/-- Unfolding step of the tokenizer. -/
theorem tokenize_cons {s : Lch} (hs : s ≠ []) :
    tokenize s = ((matchTok s).1, (matchTok s).2.1) :: tokenize ((matchTok s).2.2) := by
  match s with
  | [] => exact absurd rfl hs
  | c :: r =>
      obtain ⟨hcat, hne⟩ := matchTok_spec hs
      obtain ⟨a, t', ht⟩ := List.exists_cons_of_ne_nil hne
      rw [ht] at hcat
      rw [List.cons_append, List.cons.injEq] at hcat
      obtain ⟨rfl, hr⟩ := hcat
      show tkGo 0 (a :: r) = _
      rw [tkGo]
      show (_, (matchTok (a :: r)).2.1) :: tkGo ((matchTok (a :: r)).2.1.length - 1) r = _
      congr 1
      rw [ht]
      show tkGo ((a :: t').length - 1) r = _
      rw [show (a :: t').length - 1 = t'.length from rfl, tkGo_skip,
        show r.drop t'.length = (matchTok (a :: r)).2.2 from by
          conv_lhs => rw [← hr]
          exact List.drop_left _ _]
      rfl

/-- Claim C2 core: concatenating the token texts restores the input. -/
theorem catTexts_tokenize (s : Lch) : catTexts (tokenize s) = s := by
  have H : ∀ n (s : Lch), s.length ≤ n → catTexts (tokenize s) = s := by
    intro n
    induction n with
    | zero =>
        intro s hs
        match s, hs with
        | [], _ => rfl
    | succ n ih =>
        intro s hs
        match s with
        | [] => rfl
        | c :: r =>
            obtain ⟨hcat, hne⟩ := matchTok_spec (s := c :: r) (by simp)
            rw [tokenize_cons (by simp)]
            show (matchTok (c :: r)).2.1 ++ catTexts (tokenize (matchTok (c :: r)).2.2) = c :: r
            rw [ih ((matchTok (c :: r)).2.2) ?_, hcat]
            have hlen : 0 < (matchTok (c :: r)).2.1.length := List.length_pos.2 hne
            have := congrArg List.length hcat
            rw [List.length_append] at this
            simp only [List.length_cons] at this hs
            omega
  exact H s.length s le_rfl

/-! ## Mapping lemmas -/

theorem mlookup_cons_pos {a : Lch × Lch} {m : List (Lch × Lch)} {k : Lch}
    (ha : (a.1 == k) = true) : mlookup (a :: m) k = some a.2 := by
  rw [mlookup, List.find?_cons, ha]
  rfl

theorem mlookup_cons_neg {a : Lch × Lch} {m : List (Lch × Lch)} {k : Lch}
    (ha : ¬ (a.1 == k) = true) : mlookup (a :: m) k = mlookup m k := by
  have hf : (a.1 == k) = false := by simpa using ha
  rw [mlookup, List.find?_cons, hf, mlookup]

theorem mlookup_append_some {m Δ : List (Lch × Lch)} {k v : Lch}
    (h : mlookup m k = some v) : mlookup (m ++ Δ) k = some v := by
  induction m with
  | nil => simp [mlookup] at h
  | cons a m ih =>
      by_cases ha : (a.1 == k) = true
      · rw [mlookup_cons_pos ha] at h
        rw [List.cons_append, mlookup_cons_pos ha]
        exact h
      · rw [mlookup_cons_neg ha] at h
        rw [List.cons_append, mlookup_cons_neg ha]
        exact ih h

theorem mlookup_append_none {m Δ : List (Lch × Lch)} {k : Lch}
    (h : mlookup m k = none) : mlookup (m ++ Δ) k = mlookup Δ k := by
  induction m with
  | nil => rfl
  | cons a m ih =>
      by_cases ha : (a.1 == k) = true
      · rw [mlookup_cons_pos ha] at h; cases h
      · rw [mlookup_cons_neg ha] at h
        rw [List.cons_append, mlookup_cons_neg ha]
        exact ih h

theorem mlookup_singleton {k v : Lch} : mlookup [(k, v)] k = some v :=
  mlookup_cons_pos (by simp)

theorem mlookup_mem {m : List (Lch × Lch)} {k v : Lch} (h : mlookup m k = some v) :
    (k, v) ∈ m := by
  induction m with
  | nil => simp [mlookup] at h
  | cons a m ih =>
      by_cases ha : (a.1 == k) = true
      · rw [mlookup_cons_pos ha] at h
        cases h
        have heq : a.1 = k := by simpa using ha
        have hae : (k, a.2) = a := by rw [← heq]
        rw [hae]
        exact List.mem_cons_self _ _
      · rw [mlookup_cons_neg ha] at h
        exact List.mem_cons_of_mem _ (ih h)

theorem mlookup_eq_none {m : List (Lch × Lch)} {k : Lch} (h : mlookup m k = none) :
    ∀ p ∈ m, p.1 ≠ k := by
  induction m with
  | nil => intro p hp; cases hp
  | cons a m ih =>
      intro p hp
      by_cases ha : (a.1 == k) = true
      · rw [mlookup_cons_pos ha] at h; cases h
      · rw [mlookup_cons_neg ha] at h
        rcases List.mem_cons.1 hp with rfl | hp
        · simpa using ha
        · exact ih h p hp

/-! ## Growth and idempotence of the masking step -/

theorem lookupOrAssign_grow (st : MState) (k : Lch) (ph : Nat → Lch) :
    ∃ Δ, (lookupOrAssign st k ph).2.mapping = st.mapping ++ Δ ∧
      st.counter ≤ (lookupOrAssign st k ph).2.counter := by
  rw [lookupOrAssign]
  match mlookup st.mapping k with
  | some v => exact ⟨[], by simp⟩
  | none => exact ⟨[(k, ph st.counter)], by simp⟩

theorem maskParts_cons_kw {p : Lch} {st : MState} (ps : List Lch) (hk : isKeyword p = true) :
    maskParts st (p :: ps) = (p :: (maskParts st ps).1, (maskParts st ps).2) := by
  simp [maskParts, hk]

theorem maskParts_cons_nkw {p : Lch} {st : MState} (ps : List Lch) (hk : ¬ isKeyword p = true) :
    maskParts st (p :: ps) =
      ((lookupOrAssign st p mPh).1 :: (maskParts (lookupOrAssign st p mPh).2 ps).1,
        (maskParts (lookupOrAssign st p mPh).2 ps).2) := by
  simp [maskParts, hk]

theorem maskParts_grow (ps : List Lch) (st : MState) :
    ∃ Δ, (maskParts st ps).2.mapping = st.mapping ++ Δ ∧
      st.counter ≤ (maskParts st ps).2.counter := by
  induction ps generalizing st with
  | nil => exact ⟨[], by simp [maskParts]⟩
  | cons p ps ih =>
      by_cases hk : isKeyword p
      · rw [maskParts_cons_kw ps hk]
        exact ih st
      · rw [maskParts_cons_nkw ps hk]
        obtain ⟨Δ1, h1, hc1⟩ := lookupOrAssign_grow st p mPh
        obtain ⟨Δ2, h2, hc2⟩ := ih (lookupOrAssign st p mPh).2
        exact ⟨Δ1 ++ Δ2, by rw [h2, h1, List.append_assoc], le_trans hc1 hc2⟩

theorem maskToken_grow (st : MState) (t : Token) :
    ∃ Δ, (maskToken st t).2.mapping = st.mapping ++ Δ ∧
      st.counter ≤ (maskToken st t).2.counter := by
  match t with
  | (TKind.comment, v) => exact lookupOrAssign_grow st v (commentPh v)
  | (TKind.strlit, v) => exact lookupOrAssign_grow st v sPh
  | (TKind.ident, v) =>
      rw [maskToken]
      by_cases hk : isKeyword v
      · exact ⟨[], by simp [hk]⟩
      · simp only [hk, Bool.false_eq_true, if_false]
        by_cases hl : (v.splitOn '.').length > 1
        · simpa [hl] using maskParts_grow (v.splitOn '.') st
        · simpa [hl] using lookupOrAssign_grow st v mPh
  | (TKind.ws, v) => exact ⟨[], by simp [maskToken]⟩
  | (TKind.punct, v) => exact ⟨[], by simp [maskToken]⟩
  | (TKind.other, v) => exact ⟨[], by simp [maskToken]⟩

theorem encodeToks_grow (ts : List Token) (st : MState) :
    ∃ Δ, (encodeToks st ts).2.mapping = st.mapping ++ Δ ∧
      st.counter ≤ (encodeToks st ts).2.counter := by
  induction ts generalizing st with
  | nil => exact ⟨[], by simp [encodeToks]⟩
  | cons t ts ih =>
      rw [encodeToks]
      obtain ⟨Δ1, h1, hc1⟩ := maskToken_grow st t
      obtain ⟨Δ2, h2, hc2⟩ := ih (maskToken st t).2
      exact ⟨Δ1 ++ Δ2, by rw [h2, h1, List.append_assoc], le_trans hc1 hc2⟩

theorem lookupOrAssign_self (st : MState) (k : Lch) (ph : Nat → Lch) :
    mlookup (lookupOrAssign st k ph).2.mapping k = some (lookupOrAssign st k ph).1 := by
  rw [lookupOrAssign]
  match h : mlookup st.mapping k with
  | some v => exact h
  | none =>
      show mlookup (st.mapping ++ [(k, ph st.counter)]) k = _
      rw [mlookup_append_none h, mlookup_singleton]

theorem lookupOrAssign_of_some {st : MState} {k v : Lch} (ph : Nat → Lch)
    (h : mlookup st.mapping k = some v) : lookupOrAssign st k ph = (v, st) := by
  rw [lookupOrAssign, h]

theorem maskParts_idem (ps : List Lch) (st : MState) :
    maskParts (maskParts st ps).2 ps = maskParts st ps := by
  induction ps generalizing st with
  | nil => simp [maskParts]
  | cons p ps ih =>
      by_cases hk : isKeyword p
      · rw [maskParts_cons_kw ps hk, maskParts_cons_kw ps hk, ih st]
      · rw [maskParts_cons_nkw ps hk]
        have hself := lookupOrAssign_self st p mPh
        obtain ⟨Δ, hΔ, _⟩ := maskParts_grow ps (lookupOrAssign st p mPh).2
        have hlk : mlookup (maskParts (lookupOrAssign st p mPh).2 ps).2.mapping p =
            some (lookupOrAssign st p mPh).1 := by
          rw [hΔ]
          exact mlookup_append_some hself
        rw [maskParts_cons_nkw ps hk, lookupOrAssign_of_some _ hlk, ih]

theorem maskToken_idem (st : MState) (t : Token) :
    maskToken (maskToken st t).2 t = maskToken st t := by
  match t with
  | (TKind.comment, v) =>
      show maskToken (lookupOrAssign st v (commentPh v)).2 (TKind.comment, v) = _
      rw [maskToken, lookupOrAssign_of_some _ (lookupOrAssign_self st v (commentPh v))]
      rfl
  | (TKind.strlit, v) =>
      show maskToken (lookupOrAssign st v sPh).2 (TKind.strlit, v) = _
      rw [maskToken, lookupOrAssign_of_some _ (lookupOrAssign_self st v sPh)]
      rfl
  | (TKind.ident, v) =>
      by_cases hk : isKeyword v
      · rw [maskToken, if_pos hk, maskToken, if_pos hk]
      · by_cases hl : (v.splitOn '.').length > 1
        · have h1 : maskToken st (TKind.ident, v) =
              (List.intercalate ['.'] (maskParts st (v.splitOn '.')).1,
                (maskParts st (v.splitOn '.')).2) := by
            rw [maskToken, if_neg hk, if_pos hl]
          rw [h1, maskToken, if_neg hk, if_pos hl, maskParts_idem]
        · have h1 : maskToken st (TKind.ident, v) = lookupOrAssign st v mPh := by
            rw [maskToken, if_neg hk, if_neg hl]
          rw [h1, maskToken, if_neg hk, if_neg hl,
            lookupOrAssign_of_some _ (lookupOrAssign_self st v mPh)]
  | (TKind.ws, v) => rfl
  | (TKind.punct, v) => rfl
  | (TKind.other, v) => rfl

/-! ## Placeholder well-formedness and the session invariant -/

/-- A mapping value has one of the four placeholder forms for counter `n`. -/
def ValWF (v : Lch) (n : Nat) : Prop :=
  v = mPh n ∨ v = sPh n ∨ v = lcPh n ∨ v = bcPh n

/-- Recover the counter from a placeholder: its digits. -/
def phNum (v : Lch) : Nat := evalD (v.filter isDigitC)

theorem filter_digits_natStr (n : Nat) : (natStr n).filter isDigitC = natStr n :=
  List.filter_eq_self.2 (natStr_all_digits n)

theorem phNum_mPh (n : Nat) : phNum (mPh n) = n := by
  show evalD (List.filter isDigitC ('m' :: natStr n)) = n
  rw [List.filter_cons_of_neg (by decide), filter_digits_natStr, evalD_natStr]

theorem phNum_sPh (n : Nat) : phNum (sPh n) = n := by
  show evalD (List.filter isDigitC (quoteC :: 'm' :: (natStr n ++ [quoteC]))) = n
  rw [List.filter_cons_of_neg (by decide), List.filter_cons_of_neg (by decide),
    List.filter_append, filter_digits_natStr,
    show List.filter isDigitC [quoteC] = [] from rfl, List.append_nil, evalD_natStr]

theorem phNum_lcPh (n : Nat) : phNum (lcPh n) = n := by
  show evalD (List.filter isDigitC (("--COMMENT").data ++ natStr n)) = n
  rw [List.filter_append, filter_digits_natStr,
    show List.filter isDigitC (("--COMMENT").data) = [] from rfl, List.nil_append, evalD_natStr]

theorem phNum_bcPh (n : Nat) : phNum (bcPh n) = n := by
  show evalD (List.filter isDigitC (("/*COMMENT").data ++ (natStr n ++ ("*/").data))) = n
  rw [List.filter_append, List.filter_append, filter_digits_natStr,
    show List.filter isDigitC (("/*COMMENT").data) = [] from rfl,
    show List.filter isDigitC (("*/").data) = [] from rfl, List.nil_append, List.append_nil,
    evalD_natStr]

theorem ValWF_phNum {v : Lch} {n : Nat} (h : ValWF v n) : phNum v = n := by
  rcases h with rfl | rfl | rfl | rfl
  · exact phNum_mPh n
  · exact phNum_sPh n
  · exact phNum_lcPh n
  · exact phNum_bcPh n

theorem ValWF_ne {v w : Lch} {n m : Nat} (hv : ValWF v n) (hw : ValWF w m)
    (hnm : n ≠ m) : v ≠ w := by
  intro h
  apply hnm
  rw [← ValWF_phNum hv, ← ValWF_phNum hw, h]

theorem commentPh_wf (v : Lch) (n : Nat) : ValWF (commentPh v n) n := by
  rw [commentPh]
  by_cases h : (['-', '-'] : Lch).isPrefixOf v
  · rw [if_pos h]; right; right; left; rfl
  · rw [if_neg h]; right; right; right; rfl

/-- The invariant maintained by every masking session: the counter is
positive, every mapping value is a placeholder issued below the counter,
and both keys and values are pairwise distinct. -/
def Inv (st : MState) : Prop :=
  1 ≤ st.counter ∧
  (∀ p ∈ st.mapping, ∃ n, 1 ≤ n ∧ n < st.counter ∧ ValWF p.2 n) ∧
  st.mapping.Pairwise (fun p q => p.1 ≠ q.1 ∧ p.2 ≠ q.2)

theorem inv_fresh : Inv fresh := by
  refine ⟨le_refl 1, ?_, List.Pairwise.nil⟩
  intro p hp
  cases hp

theorem lookupOrAssign_inv {st : MState} {k : Lch} {ph : Nat → Lch} (h : Inv st)
    (hph : ∀ n, ValWF (ph n) n) : Inv (lookupOrAssign st k ph).2 := by
  obtain ⟨hc, hwf, hpw⟩ := h
  rw [lookupOrAssign]
  match hlk : mlookup st.mapping k with
  | some v => exact ⟨hc, hwf, hpw⟩
  | none =>
      show Inv (⟨st.counter + 1, st.mapping ++ [(k, ph st.counter)]⟩ : MState)
      refine ⟨Nat.le_succ_of_le hc, ?_, ?_⟩
      · intro p hp
        rcases List.mem_append.1 hp with hp | hp
        · obtain ⟨n, h1, h2, h3⟩ := hwf p hp
          exact ⟨n, h1, Nat.lt_succ_of_lt h2, h3⟩
        · rw [List.mem_singleton] at hp
          subst hp
          exact ⟨st.counter, hc, Nat.lt_succ_self _, hph st.counter⟩
      · rw [List.pairwise_append]
        refine ⟨hpw, List.pairwise_singleton _ _, ?_⟩
        intro a ha b hb
        rw [List.mem_singleton] at hb
        subst hb
        refine ⟨mlookup_eq_none hlk a ha, ?_⟩
        obtain ⟨n, _, h2, h3⟩ := hwf a ha
        exact ValWF_ne h3 (hph st.counter) (Nat.ne_of_lt h2)

theorem maskParts_inv {ps : List Lch} {st : MState} (h : Inv st) :
    Inv (maskParts st ps).2 := by
  induction ps generalizing st with
  | nil => exact h
  | cons p ps ih =>
      by_cases hk : isKeyword p
      · rw [maskParts_cons_kw ps hk]
        exact ih h
      · rw [maskParts_cons_nkw ps hk]
        exact ih (lookupOrAssign_inv h (fun n => Or.inl rfl))

theorem maskToken_inv {st : MState} {t : Token} (h : Inv st) : Inv (maskToken st t).2 := by
  match t with
  | (TKind.comment, v) => exact lookupOrAssign_inv h (commentPh_wf v)
  | (TKind.strlit, v) => exact lookupOrAssign_inv h (fun n => Or.inr (Or.inl rfl))
  | (TKind.ident, v) =>
      rw [maskToken]
      by_cases hk : isKeyword v
      · simpa [hk] using h
      · simp only [hk, Bool.false_eq_true, if_false]
        by_cases hl : (v.splitOn '.').length > 1
        · simpa [hl] using maskParts_inv h
        · simpa [hl] using lookupOrAssign_inv h (fun n => Or.inl rfl)
  | (TKind.ws, v) => exact h
  | (TKind.punct, v) => exact h
  | (TKind.other, v) => exact h

theorem encodeToks_inv {ts : List Token} {st : MState} (h : Inv st) :
    Inv (encodeToks st ts).2 := by
  induction ts generalizing st with
  | nil => exact h
  | cons t ts ih =>
      rw [encodeToks]
      exact ih (maskToken_inv h)

theorem runEnc_inv (l : List Lch) : Inv (runEnc l) := by
  rw [runEnc]
  have H : ∀ st, Inv st → Inv (l.foldl (fun st s => (encode st s).2) st) := by
    induction l with
    | nil => intro st h; exact h
    | cons s l ih =>
        intro st h
        exact ih _ (encodeToks_inv h)
  exact H fresh inv_fresh

theorem runOps_inv (l : List Op) : Inv (runOps l) := by
  rw [runOps]
  have H : ∀ st, Inv st → Inv (l.foldl (fun st op => match op with
      | Op.enc s => (encode st s).2
      | Op.reset => resetSt st) st) := by
    induction l with
    | nil => intro st h; exact h
    | cons op l ih =>
        intro st h
        refine ih _ ?_
        match op with
        | Op.enc s => exact encodeToks_inv h
        | Op.reset => exact inv_fresh
  exact H fresh inv_fresh

theorem mlookup_inj {m : List (Lch × Lch)}
    (hp : m.Pairwise (fun p q => p.1 ≠ q.1 ∧ p.2 ≠ q.2)) {k1 k2 v : Lch}
    (h1 : mlookup m k1 = some v) (h2 : mlookup m k2 = some v) : k1 = k2 := by
  induction m with
  | nil => simp [mlookup] at h1
  | cons a m ih =>
      rw [List.pairwise_cons] at hp
      by_cases ha1 : (a.1 == k1) = true
      · by_cases ha2 : (a.1 == k2) = true
        · have e1 : a.1 = k1 := by simpa using ha1
          have e2 : a.1 = k2 := by simpa using ha2
          rw [← e1, e2]
        · rw [mlookup_cons_pos ha1] at h1
          rw [mlookup_cons_neg ha2] at h2
          have hmem := mlookup_mem h2
          have := (hp.1 _ hmem).2
          cases h1
          exact absurd rfl this
      · by_cases ha2 : (a.1 == k2) = true
        · rw [mlookup_cons_pos ha2] at h2
          rw [mlookup_cons_neg ha1] at h1
          have hmem := mlookup_mem h1
          have := (hp.1 _ hmem).2
          cases h2
          exact absurd rfl this
        · rw [mlookup_cons_neg ha1] at h1
          rw [mlookup_cons_neg ha2] at h2
          exact ih hp.2 h1 h2

theorem runEnc_append (pre post : List Lch) :
    runEnc (pre ++ post) = post.foldl (fun st s => (encode st s).2) (runEnc pre) := by
  rw [runEnc, runEnc, List.foldl_append]

theorem foldl_enc_grow (post : List Lch) (st : MState) :
    ∃ Δ, (post.foldl (fun st s => (encode st s).2) st).mapping = st.mapping ++ Δ := by
  induction post generalizing st with
  | nil => exact ⟨[], by simp⟩
  | cons s post ih =>
      obtain ⟨Δ1, h1, _⟩ := encodeToks_grow (tokenize s) st
      obtain ⟨Δ2, h2⟩ := ih (encode st s).2
      exact ⟨Δ1 ++ Δ2, by rw [List.foldl_cons, h2, show (encode st s).2.mapping = st.mapping ++ Δ1 from h1, List.append_assoc]⟩

/-! ## Claim theorems: C2, C3, C9 -/

/-- C2: for every input string, the tokenizer produces a finite ordered
sequence of (kind, text) tokens whose texts, concatenated in order,
reconstruct the input string exactly. -/
theorem c2_tokenizer_lossless : ∀ s : Lch, catTexts (tokenize s) = s :=
  catTexts_tokenize

/-- C3: within one masking session (any sequence of encode calls on one
fresh engine), re-masking a token leaves the state unchanged and reproduces
the same output (idempotent placeholder assignment); the mapping of a
longer session extends that of any prefix without changing existing
entries (append-only growth); and distinct originals hold distinct
placeholders (the lookup is injective). -/
theorem c3_mapping_idempotent_append_only :
    (∀ (st : MState) (t : Token), maskToken (maskToken st t).2 t = maskToken st t) ∧
    (∀ (pre post : List Lch) (k v : Lch), mlookup (runEnc pre).mapping k = some v →
      mlookup (runEnc (pre ++ post)).mapping k = some v) ∧
    (∀ (l : List Lch) (k1 k2 v : Lch), mlookup (runEnc l).mapping k1 = some v →
      mlookup (runEnc l).mapping k2 = some v → k1 = k2) := by
  refine ⟨maskToken_idem, ?_, ?_⟩
  · intro pre post k v h
    rw [runEnc_append]
    obtain ⟨Δ, hΔ⟩ := foldl_enc_grow post (runEnc pre)
    rw [hΔ]
    exact mlookup_append_some h
  · intro l k1 k2 v h1 h2
    exact mlookup_inj (runEnc_inv l).2.2 h1 h2

/-- Witness for C3 at a concrete session. -/
theorem c3_witness :
    mlookup (runEnc [("a b").data, ("c a").data]).mapping ("a").data = some (mPh 1) ∧
    ("a").data = ("a").data := by
  constructor
  · exact c3_mapping_idempotent_append_only.2.1 [("a b").data] [("c a").data]
      (("a").data) (mPh 1) (by decide)
  · exact c3_mapping_idempotent_append_only.2.2 [("a b").data, ("c a").data]
      (("a").data) (("a").data) (mPh 1) (by decide) (by decide)

/-- C9: for an engine constructed without an existing mapping, after any
sequence of encode and reset calls every value stored in the mapping is one
of the four placeholder forms `m<N>`, `'m<N>'`, `--COMMENT<N>`,
`/*COMMENT<N>*/` for some `N ≥ 1`. -/
theorem c9_mapping_values_wellformed (ops : List Op) :
    ∀ p ∈ (runOps ops).mapping, ∃ n, 1 ≤ n ∧ ValWF p.2 n := by
  intro p hp
  obtain ⟨n, h1, _, h3⟩ := (runOps_inv ops).2.1 p hp
  exact ⟨n, h1, h3⟩

/-- Witness for C9 at a concrete op sequence. -/
theorem c9_witness :
    ∃ n, 1 ≤ n ∧ ValWF (("x").data, mPh 1).2 n := by
  refine c9_mapping_values_wellformed [Op.reset, Op.enc (("x -- c").data)] (("x").data, mPh 1) ?_
  decide

/-! ## Shapes of tokenizer output -/

/-- Structural facts the tokenizer guarantees for each token kind. -/
def TokOK : Token → Prop
  | (TKind.comment, t) => t.head? = some '-' ∨ t.head? = some '/'
  | (TKind.strlit, t) => t.head? = some quoteC
  | (TKind.ident, t) => t ≠ [] ∧ (∀ c ∈ t, identContC c = true) ∧
      (∃ c, t.head? = some c ∧ identStartC c = true) ∧ t.getLast? ≠ some '.'
  | (TKind.ws, t) => t ≠ [] ∧ ∀ c ∈ t, isSpaceC c = true
  | (TKind.punct, t) => ∃ c, t = [c] ∧ isPunctC c = true
  | (TKind.other, t) => ∃ c, t = [c]

theorem identStartC_cont {c : Char} (h : identStartC c = true) : identContC c = true := by
  simp only [identStartC, isAlphaC, Bool.or_eq_true, decide_eq_true_eq] at h
  simp only [identContC, isWordC, Bool.or_eq_true, decide_eq_true_eq]
  rcases h with (h | h) | h
  · exact Or.inl (Or.inl (Or.inl (Or.inl h)))
  · exact Or.inl (Or.inl (Or.inl (Or.inr h)))
  · exact Or.inl (Or.inr h)

theorem identStartC_ne_dot {c : Char} (h : identStartC c = true) : ¬ c = '.' := by
  intro hc
  subst hc
  simp [identStartC, isAlphaC] at h

theorem head?_dropWhile {p : Char → Bool} (l : Lch) {c : Char}
    (h : (l.dropWhile p).head? = some c) : p c = false := by
  induction l with
  | nil => simp [List.dropWhile] at h
  | cons a l ih =>
      by_cases ha : p a
      · rw [List.dropWhile_cons_of_pos ha] at h
        exact ih h
      · rw [List.dropWhile_cons_of_neg ha] at h
        simp only [List.head?_cons, Option.some.injEq] at h
        subst h
        simpa using ha

theorem dropTrailingDots_getLast {l : Lch} {c : Char}
    (h : (dropTrailingDots l).getLast? = some c) : ¬ c = '.' := by
  rw [dropTrailingDots, List.getLast?_reverse] at h
  have := head?_dropWhile l.reverse h
  simpa using this

theorem prefix_head {t l : Lch} {a : Char} (hp : t <+: a :: l) (hne : t ≠ []) :
    t.head? = some a := by
  obtain ⟨u, hu⟩ := hp
  match t with
  | [] => exact absurd rfl hne
  | c :: t' =>
      rw [List.cons_append, List.cons.injEq] at hu
      rw [hu.1]
      rfl

theorem tryBlock_head {s t rest : Lch} (h : tryBlock s = some (t, rest)) :
    t.head? = some '/' := by
  match s with
  | [] => simp [tryBlock] at h
  | [a] => simp [tryBlock] at h
  | a :: b :: r =>
      rw [tryBlock] at h
      by_cases hab : a = '/' ∧ b = '*'
      · rw [if_pos hab] at h
        match hfc : findClose r with
        | some (pre, rest') =>
            rw [hfc] at h
            cases h
            rw [hab.1]
            rfl
        | none => rw [hfc] at h; cases h
      · rw [if_neg hab] at h; cases h

theorem tryLine_head {s t rest : Lch} (h : tryLine s = some (t, rest)) :
    t.head? = some '-' := by
  match s with
  | [] => simp [tryLine] at h
  | [a] => simp [tryLine] at h
  | a :: b :: r =>
      rw [tryLine] at h
      by_cases hab : a = '-' ∧ b = '-'
      · rw [if_pos hab] at h
        cases h
        rw [hab.1]
        rfl
      · rw [if_neg hab] at h; cases h

theorem tryStr_head {s t rest : Lch} (h : tryStr s = some (t, rest)) :
    t.head? = some quoteC := by
  match s with
  | [] => simp [tryStr] at h
  | a :: r =>
      rw [tryStr] at h
      by_cases ha : a = quoteC
      · rw [if_pos ha] at h
        match hdw : r.dropWhile (fun x => !(x == quoteC)) with
        | [] => rw [hdw] at h; cases h
        | b :: rest' =>
            rw [hdw] at h
            cases h
            rw [ha]
            rfl
      · rw [if_neg ha] at h; cases h

theorem tryIdent_ok {s t rest : Lch} (h : tryIdent s = some (t, rest)) :
    t ≠ [] ∧ (∀ c ∈ t, identContC c = true) ∧
      (∃ c, t.head? = some c ∧ identStartC c = true) ∧ t.getLast? ≠ some '.' := by
  match s with
  | [] => simp [tryIdent] at h
  | a :: r =>
      rw [tryIdent] at h
      by_cases ha : identStartC a
      · rw [if_pos ha] at h
        simp only [Option.some.injEq, Prod.mk.injEq] at h
        obtain ⟨rfl, rfl⟩ := h
        have hadot := identStartC_ne_dot ha
        have hne := dropTrailingDots_ne_nil (r.takeWhile identContC) hadot
        have hpre := dropTrailingDots_pref (a :: r.takeWhile identContC)
        refine ⟨hne, ?_, ⟨a, prefix_head hpre hne, ha⟩, ?_⟩
        · intro x hx
          have hx2 := hpre.subset hx
          rcases List.mem_cons.1 hx2 with rfl | hx2
          · exact identStartC_cont ha
          · exact List.mem_takeWhile_imp hx2
        · intro hlast
          exact dropTrailingDots_getLast hlast rfl
      · rw [if_neg ha] at h; cases h

theorem tryWs_ok {s t rest : Lch} (h : tryWs s = some (t, rest)) :
    t ≠ [] ∧ ∀ c ∈ t, isSpaceC c = true := by
  match s with
  | [] => simp [tryWs] at h
  | a :: r =>
      rw [tryWs] at h
      by_cases ha : isSpaceC a
      · rw [if_pos ha] at h
        cases h
        refine ⟨by simp, ?_⟩
        intro x hx
        rcases List.mem_cons.1 hx with rfl | hx
        · exact ha
        · exact List.mem_takeWhile_imp hx
      · rw [if_neg ha] at h; cases h

theorem tryPunct_ok {s t rest : Lch} (h : tryPunct s = some (t, rest)) :
    ∃ c, t = [c] ∧ isPunctC c = true := by
  match s with
  | [] => simp [tryPunct] at h
  | a :: r =>
      rw [tryPunct] at h
      by_cases ha : isPunctC a
      · rw [if_pos ha] at h
        cases h
        exact ⟨a, rfl, ha⟩
      · rw [if_neg ha] at h; cases h

theorem matchTok_TokOK {s : Lch} (hs : s ≠ []) :
    TokOK ((matchTok s).1, (matchTok s).2.1) := by
  match s with
  | [] => exact absurd rfl hs
  | c :: r =>
      rw [matchTok]
      match h1 : tryBlock (c :: r) with
      | some (t, rest) => exact Or.inr (tryBlock_head h1)
      | none =>
      match h2 : tryLine (c :: r) with
      | some (t, rest) => exact Or.inl (tryLine_head h2)
      | none =>
      match h3 : tryStr (c :: r) with
      | some (t, rest) => exact tryStr_head h3
      | none =>
      match h4 : tryIdent (c :: r) with
      | some (t, rest) => exact tryIdent_ok h4
      | none =>
      match h5 : tryWs (c :: r) with
      | some (t, rest) => exact tryWs_ok h5
      | none =>
      match h6 : tryPunct (c :: r) with
      | some (t, rest) => exact tryPunct_ok h6
      | none => exact ⟨c, rfl⟩

theorem tokenize_TokOK (s : Lch) : ∀ tok ∈ tokenize s, TokOK tok := by
  have H : ∀ n (s : Lch), s.length ≤ n → ∀ tok ∈ tokenize s, TokOK tok := by
    intro n
    induction n with
    | zero =>
        intro s hs
        match s, hs with
        | [], _ => intro tok htok; cases htok
    | succ n ih =>
        intro s hs
        match s with
        | [] => intro tok htok; cases htok
        | c :: r =>
            obtain ⟨hcat, hne⟩ := matchTok_spec (s := c :: r) (by simp)
            rw [tokenize_cons (by simp)]
            intro tok htok
            rcases List.mem_cons.1 htok with rfl | htok
            · exact matchTok_TokOK (by simp)
            · refine ih ((matchTok (c :: r)).2.2) ?_ tok htok
              have := congrArg List.length hcat
              rw [List.length_append] at this
              simp only [List.length_cons] at this hs
              have : 0 < (matchTok (c :: r)).2.1.length := List.length_pos.2 hne
              omega
  exact H s.length s le_rfl

/-! ## Keyword facts and preservation (claim C7) -/

set_option maxRecDepth 4096 in
theorem kw_head_alpha :
    keywords.all (fun kw => match kw.data with
      | [] => false
      | c :: _ => isAlphaC c) = true := by decide

theorem isKeyword_head {t : Lch} (h : isKeyword t = true) :
    ∃ c r, t = c :: r ∧ isAlphaC (Char.toUpper c) = true := by
  rw [isKeyword] at h
  have hmem : String.mk (pyUpper t) ∈ keywords := by
    have := List.elem_iff.1 h
    exact this
  have hall := List.all_eq_true.1 kw_head_alpha _ hmem
  match t with
  | [] => simp [pyUpper] at hall
  | c :: r => exact ⟨c, r, rfl, by simpa [pyUpper] using hall⟩

theorem kw_head_not {t : Lch} (ht : isKeyword t = true) {d : Char}
    (hd : isAlphaC (Char.toUpper d) = false) : t.head? ≠ some d := by
  obtain ⟨c, r, rfl, hc⟩ := isKeyword_head ht
  intro hh
  simp only [List.head?_cons, Option.some.injEq] at hh
  subst hh
  rw [hc] at hd
  cases hd

theorem mlookup_insert_other {m : List (Lch × Lch)} {k v t : Lch} (hne : k ≠ t) :
    mlookup (m ++ [(k, v)]) t = mlookup m t := by
  match hl : mlookup m t with
  | some w => exact mlookup_append_some hl
  | none =>
      rw [mlookup_append_none hl]
      rw [mlookup, List.find?_cons, show ((k, v).1 == t) = false from by simpa using hne]
      rfl

theorem lookupOrAssign_lookup_other {st : MState} {k t : Lch} {ph : Nat → Lch} (hne : k ≠ t) :
    mlookup (lookupOrAssign st k ph).2.mapping t = mlookup st.mapping t := by
  rw [lookupOrAssign]
  match mlookup st.mapping k with
  | some v => rfl
  | none => exact mlookup_insert_other hne

theorem maskParts_kw_lookup {ps : List Lch} {st : MState} {t : Lch}
    (ht : isKeyword t = true) :
    mlookup (maskParts st ps).2.mapping t = mlookup st.mapping t := by
  induction ps generalizing st with
  | nil => rfl
  | cons p ps ih =>
      by_cases hk : isKeyword p
      · rw [maskParts_cons_kw ps hk]
        exact ih
      · rw [maskParts_cons_nkw ps hk]
        rw [show (maskParts (lookupOrAssign st p mPh).2 ps).2 =
          (maskParts (lookupOrAssign st p mPh).2 ps).2 from rfl]
        rw [ih, lookupOrAssign_lookup_other (fun he => hk (by rw [he]; exact ht))]

theorem maskToken_kw_lookup {st : MState} {tok : Token} {t : Lch}
    (ht : isKeyword t = true) (hok : TokOK tok) :
    mlookup (maskToken st tok).2.mapping t = mlookup st.mapping t := by
  match tok with
  | (TKind.comment, v) =>
      have hvt : v ≠ t := by
        intro he
        subst he
        rcases hok with hh | hh
        · exact kw_head_not ht (by decide) hh
        · exact kw_head_not ht (by decide) hh
      show mlookup (lookupOrAssign st v (commentPh v)).2.mapping t = _
      exact lookupOrAssign_lookup_other hvt
  | (TKind.strlit, v) =>
      have hvt : v ≠ t := by
        intro he
        subst he
        exact kw_head_not ht (by decide) hok
      show mlookup (lookupOrAssign st v sPh).2.mapping t = _
      exact lookupOrAssign_lookup_other hvt
  | (TKind.ident, v) =>
      rw [maskToken]
      by_cases hk : isKeyword v
      · rw [if_pos hk]
      · rw [if_neg hk]
        by_cases hl : (v.splitOn '.').length > 1
        · rw [if_pos hl]
          exact maskParts_kw_lookup ht
        · rw [if_neg hl]
          exact lookupOrAssign_lookup_other (fun he => hk (he ▸ ht))
  | (TKind.ws, v) => rfl
  | (TKind.punct, v) => rfl
  | (TKind.other, v) => rfl

theorem encodeToks_kw_lookup {ts : List Token} {st : MState} {t : Lch}
    (ht : isKeyword t = true) (hok : ∀ tok ∈ ts, TokOK tok) :
    mlookup (encodeToks st ts).2.mapping t = mlookup st.mapping t := by
  induction ts generalizing st with
  | nil => rfl
  | cons tok ts ih =>
      rw [encodeToks]
      rw [ih (fun x hx => hok x (List.mem_cons_of_mem _ hx)),
        maskToken_kw_lookup ht (hok tok (List.mem_cons_self _ _))]

theorem encodeToks_append (st : MState) (l1 l2 : List Token) :
    encodeToks st (l1 ++ l2) =
      ((encodeToks st l1).1 ++ (encodeToks (encodeToks st l1).2 l2).1,
        (encodeToks (encodeToks st l1).2 l2).2) := by
  induction l1 generalizing st with
  | nil => simp [encodeToks]
  | cons t l1 ih =>
      rw [List.cons_append, encodeToks, encodeToks, ih]
      simp [List.append_assoc]

theorem maskToken_kw_out {st : MState} {t : Lch} (hkw : isKeyword t = true) :
    maskToken st (TKind.ident, t) = (t, st) := by
  rw [maskToken, if_pos hkw]

/-- C7: any identifier token whose case-insensitive text is in the keyword
table appears verbatim (original case) in the masked output of `encode`,
and the mapping's entry for it is exactly what it was before the call (for
a fresh engine: absent). -/
theorem c7_keyword_preserved (st : MState) (s : Lch) (pre post : List Token) (t : Lch)
    (htok : tokenize s = pre ++ (TKind.ident, t) :: post)
    (hkw : isKeyword t = true) :
    (∃ a b, (encode st s).1 = a ++ t ++ b) ∧
      mlookup (encode st s).2.mapping t = mlookup st.mapping t := by
  constructor
  · rw [encode, htok, encodeToks_append, encodeToks, maskToken_kw_out hkw]
    exact ⟨(encodeToks st pre).1,
      (encodeToks ((t, (encodeToks st pre).2) : Lch × MState).2 post).1,
      (List.append_assoc _ _ _).symm⟩
  · rw [encode]
    refine encodeToks_kw_lookup hkw ?_
    intro tok htokmem
    exact tokenize_TokOK s tok (htok ▸ htokmem)

/-- Witness for C7 on `select x`. -/
theorem c7_witness :
    (∃ a b, (encode fresh (("select x").data)).1 = a ++ ("select").data ++ b) ∧
      mlookup (encode fresh (("select x").data)).2.mapping (("select").data) =
        mlookup fresh.mapping (("select").data) := by
  refine c7_keyword_preserved fresh (("select x").data) []
    [(TKind.ws, (" ").data), (TKind.ident, ("x").data)] (("select").data) ?_ ?_
  · decide
  · decide

/-! ## Qualified-name splitting (claim C8) -/

theorem splitOn_two {p q : Lch} (hp : ∀ c ∈ p, ¬ c = '.') (hq : ∀ c ∈ q, ¬ c = '.') :
    (p ++ '.' :: q).splitOn '.' = [p, q] := by
  rw [List.splitOn,
    List.splitOnP_first (fun x => x == '.') p
      (fun c hc => by simpa using hp c hc) '.' rfl q,
    List.splitOnP_eq_single (fun x => x == '.') q
      (fun c hc => by simpa using hq c hc)]

/-- C8 counterexample: `NET.HOST` has no keyword among its dot-parts, yet
encoding leaves the whole token verbatim and assigns no placeholders,
because the full dotted token is itself in the keyword table. -/
theorem c8_counterexample :
    maskToken fresh (TKind.ident, ("NET.HOST").data) = (("NET.HOST").data, fresh) ∧
      isKeyword (("NET").data) = false ∧ isKeyword (("HOST").data) = false := by
  refine ⟨?_, by decide, by decide⟩
  decide

/-- C8 (amended): when the whole dotted token is not itself in the keyword
table, encoding `p.q` masks the parts independently: if neither part is a
keyword the result is two fresh placeholders joined by a dot with both
parts keyed separately; if `p` is a keyword it passes through unchanged
while `q` is masked. -/
theorem c8_qualified_split (st : MState) (p q : Lch)
    (hp : ∀ c ∈ p, ¬ c = '.') (hq : ∀ c ∈ q, ¬ c = '.')
    (hw : isKeyword (p ++ '.' :: q) = false) :
    ((isKeyword p = false → isKeyword q = false → p ≠ q →
      mlookup st.mapping p = none → mlookup st.mapping q = none →
      maskToken st (TKind.ident, p ++ '.' :: q) =
        (mPh st.counter ++ '.' :: mPh (st.counter + 1),
          ⟨st.counter + 2,
            st.mapping ++ [(p, mPh st.counter)] ++ [(q, mPh (st.counter + 1))]⟩)) ∧
     (isKeyword p = true → isKeyword q = false →
      mlookup st.mapping q = none →
      maskToken st (TKind.ident, p ++ '.' :: q) =
        (p ++ '.' :: mPh st.counter,
          ⟨st.counter + 1, st.mapping ++ [(q, mPh st.counter)]⟩))) := by
  have hsplit := splitOn_two hp hq
  have hunf : maskToken st (TKind.ident, p ++ '.' :: q) =
      (List.intercalate ['.'] (maskParts st [p, q]).1, (maskParts st [p, q]).2) := by
    rw [maskToken, if_neg (by simp [hw]), hsplit, if_pos (by simp)]
  have hic : ∀ a b : Lch, List.intercalate ['.'] [a, b] = a ++ '.' :: b := by
    intro a b
    simp [List.intercalate, List.intersperse]
  constructor
  · intro hkp hkq hpq hlp hlq
    have h1 : lookupOrAssign st p mPh =
        (mPh st.counter, ⟨st.counter + 1, st.mapping ++ [(p, mPh st.counter)]⟩) := by
      rw [lookupOrAssign, hlp]
    have hlq2 : mlookup (st.mapping ++ [(p, mPh st.counter)]) q = none := by
      rw [mlookup_insert_other hpq]
      exact hlq
    have h2 : lookupOrAssign
        (⟨st.counter + 1, st.mapping ++ [(p, mPh st.counter)]⟩ : MState) q mPh =
        (mPh (st.counter + 1),
          ⟨st.counter + 2, st.mapping ++ [(p, mPh st.counter)] ++ [(q, mPh (st.counter + 1))]⟩) := by
      rw [lookupOrAssign]
      show (match mlookup (st.mapping ++ [(p, mPh st.counter)]) q with
        | some v => _
        | none => _) = _
      rw [hlq2]
    rw [hunf, maskParts_cons_nkw _ (by simp [hkp]), h1, maskParts_cons_nkw _ (by simp [hkq]), h2]
    show (List.intercalate ['.'] [mPh st.counter, mPh (st.counter + 1)], _) = _
    rw [hic]
    rfl
  · intro hkp hkq hlq
    have h1 : lookupOrAssign st q mPh =
        (mPh st.counter, ⟨st.counter + 1, st.mapping ++ [(q, mPh st.counter)]⟩) := by
      rw [lookupOrAssign, hlq]
    rw [hunf, maskParts_cons_kw _ hkp, maskParts_cons_nkw _ (by simp [hkq]), h1]
    show (List.intercalate ['.'] [p, mPh st.counter], _) = _
    rw [hic]
    rfl

/-- Witness for C8 on the token `a.b` from a fresh engine. -/
theorem c8_witness :
    maskToken fresh (TKind.ident, ("a.b").data) =
      (mPh 1 ++ '.' :: mPh 2, ⟨3, [((("a").data : Lch), mPh 1), ((("b").data : Lch), mPh 2)]⟩) := by
  have h := (c8_qualified_split fresh (("a").data) (("b").data)
    (by decide) (by decide) (by decide)).1 (by decide) (by decide) (by decide)
    (by decide) (by decide)
  exact h

/-! ## Comments-only mode (claim C4, modelled from the spec) -/

/-- C4: `encode_comments_only` performs the same traversal as `encode` but
substitutes only Comment tokens; String and Identifier tokens always pass
through verbatim, and on `SELECT id FROM t -- note` only the comment is
replaced, by `--COMMENT1`. -/
theorem c4_comments_only :
    (∀ (st : MState) (tok : Token), tok.1 ≠ TKind.comment → maskTokenCO st tok = (tok.2, st)) ∧
    encodeCO fresh (("SELECT id FROM t -- note").data) =
      (("SELECT id FROM t --COMMENT1").data,
        ⟨2, [((("-- note").data : Lch), (("--COMMENT1").data : Lch))]⟩) := by
  constructor
  · intro st tok h
    match tok with
    | (TKind.comment, v) => exact absurd rfl h
    | (TKind.strlit, v) => rfl
    | (TKind.ident, v) => rfl
    | (TKind.ws, v) => rfl
    | (TKind.punct, v) => rfl
    | (TKind.other, v) => rfl
  · decide

/-- Witness for C4: a String token and an Identifier token pass through. -/
theorem c4_witness :
    maskTokenCO fresh (TKind.ident, ("id").data) = ((("id").data : Lch), fresh) ∧
    maskTokenCO fresh (TKind.strlit, (quoteC :: ('x' :: [quoteC]))) =
      ((quoteC :: ('x' :: [quoteC]) : Lch), fresh) := by
  constructor
  · exact c4_comments_only.1 fresh (TKind.ident, ("id").data) (by decide)
  · exact c4_comments_only.1 fresh (TKind.strlit, (quoteC :: ('x' :: [quoteC]))) (by decide)

/-! ## Identity on empty inputs (claim C10) -/

theorem foldl_lookup_nil (L : List Lch) (r : Lch) :
    L.foldl (fun r mk => match mlookup ([] : List (Lch × Lch)) mk with
      | some o => pyReplace r mk o
      | none => r) r = r := by
  induction L generalizing r with
  | nil => rfl
  | cons mk L ih => exact ih r

/-- C10: `decode` with an empty mapping returns every string unchanged; an
unmasker constructed from an empty mapping returns every input unchanged;
and every unmasker returns the empty string unchanged. -/
theorem c10_empty_identity :
    (∀ s : Lch, decode s [] = s) ∧
    (∀ t : Lch, unmask (mkUnmasker []) t = t) ∧
    (∀ m : List (Lch × Lch), unmask (mkUnmasker m) [] = []) := by
  refine ⟨?_, ?_, ?_⟩
  · intro s
    have e1 : decode s [] =
        (finditer matchSPat ((finditer matchCPat s).foldl
            (fun r mk => match mlookup ([] : List (Lch × Lch)) mk with
              | some o => pyReplace r mk o
              | none => r) s)).foldl
          (fun r mk => match mlookup ([] : List (Lch × Lch)) mk with
            | some o => pyReplace r mk o
            | none => r)
          ((finditer matchCPat s).foldl
            (fun r mk => match mlookup ([] : List (Lch × Lch)) mk with
              | some o => pyReplace r mk o
              | none => r) s) := rfl
    rw [e1, foldl_lookup_nil, foldl_lookup_nil]
  · intro t
    show unmask ⟨[], [], []⟩ t = t
    by_cases ht : t = []
    · subst ht; rfl
    · rw [unmask, if_neg ht]
      rfl
  · intro m
    rw [unmask, if_pos rfl]

/-! ## Character and substring helper lemmas -/

theorem isDigit_bounds {c : Char} (h : isDigitC c = true) :
    48 ≤ c.toNat ∧ c.toNat ≤ 57 := by
  simpa [isDigitC] using h

theorem digit_ne_of_toNat {c d : Char} (hc : isDigitC c = true)
    (hd : ¬ (48 ≤ d.toNat ∧ d.toNat ≤ 57)) : ¬ c = d := by
  intro he
  subst he
  exact hd (isDigit_bounds hc)

theorem not_isPrefixOf_of_head_ne {a b : Char} {as t : Lch} (h : ¬ a = b) :
    ¬ (a :: as).isPrefixOf (b :: t) = true := by
  intro hp
  obtain ⟨u, hu⟩ := List.isPrefixOf_iff_prefix.1 hp
  rw [List.cons_append, List.cons.injEq] at hu
  exact h hu.1

theorem isPrefixOf_head_ne {a b : Char} {as t : Lch} (h : ¬ a = b) :
    (a :: as).isPrefixOf (b :: t) = false :=
  Bool.eq_false_iff.2 (not_isPrefixOf_of_head_ne h)

theorem isPrefixOf_append (l t : Lch) : l.isPrefixOf (l ++ t) = true :=
  List.isPrefixOf_iff_prefix.2 ⟨t, rfl⟩

theorem containsSeq_cons (pat : Lch) (c : Char) (r : Lch) :
    containsSeq pat (c :: r) = (pat.isPrefixOf (c :: r) || containsSeq pat r) := rfl

theorem containsSeq_of_head_notin {c0 : Char} {m' s : Lch} (h : c0 ∉ s) :
    containsSeq (c0 :: m') s = false := by
  induction s with
  | nil => rfl
  | cons d r ih =>
      rw [containsSeq_cons, isPrefixOf_head_ne (fun he => h (by
          rw [he]
          exact List.mem_cons_self _ _)),
        Bool.false_or]
      exact ih (fun hm => h (List.mem_cons_of_mem _ hm))

theorem containsSeq_digits_append {c0 : Char} {m' tail0 : Lch}
    (hc0 : isDigitC c0 = false) (htail : containsSeq (c0 :: m') tail0 = false) :
    ∀ ds : Lch, (∀ d ∈ ds, isDigitC d = true) → containsSeq (c0 :: m') (ds ++ tail0) = false := by
  intro ds
  induction ds with
  | nil => intro _; exact htail
  | cons d r ih =>
      intro hall
      rw [List.cons_append, containsSeq_cons,
        isPrefixOf_head_ne (fun he => by
          rw [he] at hc0
          rw [hall d (List.mem_cons_self _ _)] at hc0
          cases hc0),
        Bool.false_or]
      exact ih (fun x hx => hall x (List.mem_cons_of_mem _ hx))

theorem raGo_drop (mask rep : Lch) : ∀ (n : Nat) (l : Lch),
    raGo mask rep n l = raGo mask rep 0 (l.drop n) := by
  intro n l
  induction l generalizing n with
  | nil => cases n <;> rfl
  | cons c r ih =>
      cases n with
      | zero => rfl
      | succ n =>
          rw [show raGo mask rep (n + 1) (c :: r) = raGo mask rep n r from rfl, ih n,
            List.drop_succ_cons]

theorem raGo_not_contains {mask rep : Lch} :
    ∀ s : Lch, containsSeq mask s = false → raGo mask rep 0 s = s := by
  intro s
  induction s with
  | nil => intro _; rfl
  | cons c r ih =>
      intro h
      rw [containsSeq_cons, Bool.or_eq_false_iff] at h
      rw [show raGo mask rep 0 (c :: r) =
          (if mask.isPrefixOf (c :: r) then rep ++ raGo mask rep (mask.length - 1) r
           else c :: raGo mask rep 0 r) from rfl,
        if_neg (by rw [h.1]; exact Bool.false_ne_true), ih h.2]

theorem raGo_prefix {mask : Lch} (rep rest : Lch) (hm : mask ≠ []) :
    raGo mask rep 0 (mask ++ rest) = rep ++ raGo mask rep 0 rest := by
  match mask, hm with
  | c :: m', _ =>
      have hpre : (c :: m').isPrefixOf (c :: (m' ++ rest)) = true :=
        isPrefixOf_append (c :: m') rest
      rw [show raGo (c :: m') rep 0 ((c :: m') ++ rest) =
          (if (c :: m').isPrefixOf (c :: (m' ++ rest)) then
            rep ++ raGo (c :: m') rep ((c :: m').length - 1) (m' ++ rest)
           else c :: raGo (c :: m') rep 0 (m' ++ rest)) from rfl,
        if_pos hpre, raGo_drop,
        show (c :: m').length - 1 = m'.length from rfl, List.drop_left]

theorem raGo_digits_append {c0 : Char} {m' rep : Lch} (hc0 : isDigitC c0 = false) :
    ∀ (ds s0 : Lch), (∀ d ∈ ds, isDigitC d = true) →
      raGo (c0 :: m') rep 0 (ds ++ s0) = ds ++ raGo (c0 :: m') rep 0 s0 := by
  intro ds
  induction ds with
  | nil => intro s0 _; rfl
  | cons d r ih =>
      intro s0 hall
      rw [List.cons_append,
        show raGo (c0 :: m') rep 0 (d :: (r ++ s0)) =
          (if (c0 :: m').isPrefixOf (d :: (r ++ s0)) then
            rep ++ raGo (c0 :: m') rep ((c0 :: m').length - 1) (r ++ s0)
           else d :: raGo (c0 :: m') rep 0 (r ++ s0)) from rfl,
        if_neg (not_isPrefixOf_of_head_ne (fun he => by
          rw [he] at hc0
          rw [hall d (List.mem_cons_self _ _)] at hc0
          cases hc0)),
        ih s0 (fun x hx => hall x (List.mem_cons_of_mem _ hx)), List.cons_append]

theorem pyInt?_digits {ds : Lch} (h1 : ds ≠ []) (h2 : ∀ d ∈ ds, isDigitC d = true) :
    pyInt? ds = some (evalD ds : Int) := by
  match ds, h1 with
  | d :: r, _ =>
      have hd := h2 d (List.mem_cons_self _ _)
      have hplus : ¬ d = '+' := digit_ne_of_toNat hd (by decide)
      have hminus : ¬ d = '-' := digit_ne_of_toNat hd (by decide)
      rw [pyInt?]
      simp only [if_neg hplus, if_neg hminus]
      rw [if_pos ⟨by simp, List.all_eq_true.2 h2⟩, one_mul]

/-! ## The counter scan of `__init__` on well-formed values (claim C6) -/

theorem contains_qm_digit {d : Char} (h : isDigitC d = true) :
    (([quoteC, 'm'] : Lch).contains d) = false := by
  have h1 : ¬ d = quoteC := digit_ne_of_toNat h (by decide)
  have h2 : ¬ d = 'm' := digit_ne_of_toNat h (by decide)
  simp [List.contains, h1, h2]

theorem pyStrip_sPh (n : Nat) : pyStrip [quoteC, 'm'] (sPh n) = natStr n := by
  obtain ⟨d, r, hds⟩ := List.exists_cons_of_ne_nil (natStr_ne_nil n)
  have hd : isDigitC d = true := natStr_all_digits n d (by rw [hds]; exact List.mem_cons_self _ _)
  have hs : sPh n = quoteC :: 'm' :: (natStr n ++ [quoteC]) := rfl
  rw [pyStrip, hs]
  rw [List.dropWhile_cons_of_pos (by decide), List.dropWhile_cons_of_pos (by decide)]
  rw [hds, List.cons_append,
    List.dropWhile_cons_of_neg (by rw [contains_qm_digit hd]; exact Bool.false_ne_true)]
  rw [show (d :: (r ++ [quoteC])).reverse = quoteC :: ((d :: r).reverse) from by simp]
  rw [List.dropWhile_cons_of_pos (by decide)]
  obtain ⟨e, t, het⟩ := List.exists_cons_of_ne_nil
    (show (d :: r).reverse ≠ [] from by simp)
  have he : isDigitC e = true := by
    have hmem : e ∈ (d :: r).reverse := by rw [het]; exact List.mem_cons_self _ _
    rw [List.mem_reverse] at hmem
    rw [← hds] at hmem
    exact natStr_all_digits n e hmem
  rw [het, List.dropWhile_cons_of_neg (by rw [contains_qm_digit he]; exact Bool.false_ne_true),
    ← het, List.reverse_reverse]

theorem counterOfValue_mPh (n : Nat) : counterOfValue (mPh n) = some (n : Int) := by
  have hdig := natStr_all_digits n
  have hne := natStr_ne_nil n
  have hc1 : ¬ ((quoteC :: ['m']).isPrefixOf (mPh n) = true ∧
      ([quoteC] : Lch).isSuffixOf (mPh n) = true) :=
    fun hand => not_isPrefixOf_of_head_ne (by decide)
      (show (quoteC :: ['m']).isPrefixOf ('m' :: natStr n) = true from hand.1)
  have hc2 : (['m'] : Lch).isPrefixOf (mPh n) = true :=
    isPrefixOf_append ['m'] (natStr n)
  rw [counterOfValue, if_neg hc1, if_pos hc2,
    show (mPh n).drop 1 = natStr n from rfl, pyInt?_digits hne hdig, evalD_natStr]

theorem counterOfValue_sPh (n : Nat) : counterOfValue (sPh n) = some (n : Int) := by
  have hdig := natStr_all_digits n
  have hne := natStr_ne_nil n
  have hc1 : (quoteC :: ['m']).isPrefixOf (sPh n) = true ∧
      ([quoteC] : Lch).isSuffixOf (sPh n) = true := by
    constructor
    · exact isPrefixOf_append [quoteC, 'm'] (natStr n ++ [quoteC])
    · exact List.isSuffixOf_iff_suffix.2 ⟨quoteC :: 'm' :: natStr n, by
        show (quoteC :: 'm' :: natStr n) ++ [quoteC] = sPh n
        simp [sPh]⟩
  rw [counterOfValue, if_pos hc1, pyStrip_sPh, pyInt?_digits hne hdig, evalD_natStr]

theorem counterOfValue_lcPh (n : Nat) : counterOfValue (lcPh n) = some (n : Int) := by
  have hdig := natStr_all_digits n
  have hne := natStr_ne_nil n
  have hc1 : ¬ ((quoteC :: ['m']).isPrefixOf (lcPh n) = true ∧
      ([quoteC] : Lch).isSuffixOf (lcPh n) = true) :=
    fun hand => not_isPrefixOf_of_head_ne (by decide)
      (show (quoteC :: ['m']).isPrefixOf
        ('-' :: (('-' :: ("COMMENT").data) ++ natStr n)) = true from hand.1)
  have hc2 : ¬ (['m'] : Lch).isPrefixOf (lcPh n) = true :=
    fun hp => not_isPrefixOf_of_head_ne (by decide)
      (show ('m' :: ([] : Lch)).isPrefixOf
        ('-' :: (('-' :: ("COMMENT").data) ++ natStr n)) = true from hp)
  have hc3 : ("--COMMENT").data.isPrefixOf (lcPh n) = true ∨
      containsSeq (("COMMENT").data) (lcPh n) = true :=
    Or.inl (isPrefixOf_append (("--COMMENT").data) (natStr n))
  have hr1 : pyReplace (lcPh n) (("--COMMENT").data) [] = natStr n := by
    rw [pyReplace, show lcPh n = ("--COMMENT").data ++ natStr n from rfl,
      raGo_prefix [] (natStr n) (by decide), List.nil_append]
    have htail1 : containsSeq ('-' :: ("-COMMENT").data) [] = false := by decide
    exact raGo_not_contains (natStr n)
      (by simpa using containsSeq_digits_append (by decide) htail1 (natStr n) hdig)
  have hr2 : pyReplace (natStr n) (("/*COMMENT").data) [] = natStr n := by
    have htail2 : containsSeq ('/' :: ("*COMMENT").data) [] = false := by decide
    exact raGo_not_contains (natStr n)
      (by simpa using containsSeq_digits_append (by decide) htail2 (natStr n) hdig)
  have hr3 : pyReplace (natStr n) (("*/").data) [] = natStr n := by
    have htail3 : containsSeq ('*' :: ("/").data) [] = false := by decide
    exact raGo_not_contains (natStr n)
      (by simpa using containsSeq_digits_append (by decide) htail3 (natStr n) hdig)
  rw [counterOfValue, if_neg hc1, if_neg hc2, if_pos hc3, hr1, hr2, hr3,
    pyInt?_digits hne hdig, evalD_natStr]

theorem counterOfValue_bcPh (n : Nat) : counterOfValue (bcPh n) = some (n : Int) := by
  have hdig := natStr_all_digits n
  have hne := natStr_ne_nil n
  have hform : bcPh n = ("/*COMMENT").data ++ (natStr n ++ ("*/").data) := by
    simp [bcPh]
  have hc1 : ¬ ((quoteC :: ['m']).isPrefixOf (bcPh n) = true ∧
      ([quoteC] : Lch).isSuffixOf (bcPh n) = true) :=
    fun hand => not_isPrefixOf_of_head_ne (by decide)
      (show (quoteC :: ['m']).isPrefixOf
        ('/' :: (('*' :: ("COMMENT").data) ++ (natStr n ++ ("*/").data))) = true from hand.1)
  have hc2 : ¬ (['m'] : Lch).isPrefixOf (bcPh n) = true :=
    fun hp => not_isPrefixOf_of_head_ne (by decide)
      (show ('m' :: ([] : Lch)).isPrefixOf
        ('/' :: (('*' :: ("COMMENT").data) ++ (natStr n ++ ("*/").data))) = true from hp)
  have hcont : containsSeq (("COMMENT").data) (bcPh n) = true := by
    have hstep : containsSeq (("COMMENT").data)
        (("COMMENT").data ++ (natStr n ++ ("*/").data)) = true := by
      rw [show (("COMMENT").data ++ (natStr n ++ ("*/").data) : Lch) =
        'C' :: (("OMMENT").data ++ (natStr n ++ ("*/").data)) from rfl, containsSeq_cons]
      rw [show (("COMMENT").data).isPrefixOf
        ('C' :: (("OMMENT").data ++ (natStr n ++ ("*/").data))) = true from
        isPrefixOf_append (("COMMENT").data) (natStr n ++ ("*/").data)]
      rfl
    rw [show bcPh n =
      '/' :: '*' :: (("COMMENT").data ++ (natStr n ++ ("*/").data)) from hform,
      containsSeq_cons, containsSeq_cons, hstep]
    simp
  have hr1 : pyReplace (bcPh n) (("--COMMENT").data) [] = bcPh n := by
    refine raGo_not_contains (bcPh n) (@containsSeq_of_head_notin '-' _ _ ?_)
    intro hmem
    rw [hform] at hmem
    rcases List.mem_append.1 hmem with hm | hm
    · revert hm; decide
    · rcases List.mem_append.1 hm with hm | hm
      · have hd := hdig _ hm
        revert hd; decide
      · revert hm; decide
  have hr2 : pyReplace (bcPh n) (("/*COMMENT").data) [] = natStr n ++ ("*/").data := by
    rw [pyReplace, hform, raGo_prefix [] (natStr n ++ ("*/").data) (by decide), List.nil_append]
    have htail4 : containsSeq ('/' :: ("*COMMENT").data) (("*/").data) = false := by decide
    exact raGo_not_contains (natStr n ++ ("*/").data)
      (by simpa using containsSeq_digits_append (by decide) htail4 (natStr n) hdig)
  have hr3 : pyReplace (natStr n ++ ("*/").data) (("*/").data) [] = natStr n := by
    rw [pyReplace, show (("*/").data : Lch) = '*' :: ("/").data from rfl,
      raGo_digits_append (by decide) (natStr n) (("*/").data) hdig,
      show raGo ('*' :: ("/").data) [] 0 (("*/").data) = [] from rfl, List.append_nil]
  rw [counterOfValue, if_neg hc1, if_neg hc2, if_pos (Or.inr hcont), hr1, hr2, hr3,
    pyInt?_digits hne hdig, evalD_natStr]

theorem counterOfValue_wf {v : Lch} {n : Nat} (h : ValWF v n) :
    counterOfValue v = some (n : Int) := by
  rcases h with rfl | rfl | rfl | rfl
  · exact counterOfValue_mPh n
  · exact counterOfValue_sPh n
  · exact counterOfValue_lcPh n
  · exact counterOfValue_bcPh n

/-- Largest placeholder number among the values of a mapping. -/
def phMax (mp : List (Lch × Lch)) : Nat :=
  mp.foldl (fun acc p => max acc (phNum p.2)) 0

theorem maxCounter_eq {mp : List (Lch × Lch)}
    (h : ∀ p ∈ mp, ∃ n, ValWF p.2 n) : maxCounter mp = (phMax mp : Int) := by
  rw [maxCounter, phMax]
  have H : ∀ (a : Nat), mp.foldl (fun acc p => match counterOfValue p.2 with
      | some k => max acc k
      | none => acc) (a : Int) = ((mp.foldl (fun acc p => max acc (phNum p.2)) a : Nat) : Int) := by
    induction mp with
    | nil => intro a; rfl
    | cons q mp ih =>
        intro a
        obtain ⟨n, hn⟩ := h q (List.mem_cons_self _ _)
        have hwf := counterOfValue_wf hn
        have hnum := ValWF_phNum hn
        rw [List.foldl_cons, List.foldl_cons, hwf, hnum]
        have hred : (match some ((n : Nat) : Int) with
            | some k => (a : Int) ⊔ k
            | none => (a : Int)) = (a : Int) ⊔ (n : Int) := rfl
        rw [hred, show ((a : Int) ⊔ (n : Int)) = ((a ⊔ n : Nat) : Int) from by
          rw [Nat.cast_max]]
        exact ih (fun p hp => h p (List.mem_cons_of_mem _ hp)) (a ⊔ n)
  exact H 0

/-- C6: constructing an engine from an existing mapping copies all prior
pairs verbatim, initializes the counter to one greater than the maximum N
found across the placeholder forms of the supplied values, and continues
the session: `{"user_id": "m5"}` reuses `m5` and a new identifier gets
`m6` with the counter ending past it. -/
theorem c6_mapping_continuation :
    (∀ mp : List (Lch × Lch), (initState mp).mapping = mp) ∧
    (∀ mp : List (Lch × Lch), mp ≠ [] → (∀ p ∈ mp, ∃ n, ValWF p.2 n) →
      (initState mp).counter = phMax mp + 1) ∧
    encode (initState [((("user_id").data : Lch), mPh 5)]) (("user_id foo").data) =
      (mPh 5 ++ ' ' :: mPh 6,
        ⟨7, [((("user_id").data : Lch), mPh 5), ((("foo").data : Lch), mPh 6)]⟩) := by
  refine ⟨?_, ?_, by decide⟩
  · intro mp
    by_cases h : mp = []
    · subst h; rfl
    · rw [initState, if_neg h]
  · intro mp hne hwf
    rw [initState, if_neg hne]
    show (if maxCounter mp > 0 then (maxCounter mp + 1).toNat else 1) = phMax mp + 1
    rw [maxCounter_eq hwf]
    by_cases hpos : phMax mp > 0
    · rw [if_pos (by exact_mod_cast hpos)]
      omega
    · rw [if_neg (by exact_mod_cast hpos)]
      omega

/-- Witness for C6 on the seeded mapping `{"user_id": "m5"}`. -/
theorem c6_witness :
    (initState [((("user_id").data : Lch), mPh 5)]).counter =
      phMax [((("user_id").data : Lch), mPh 5)] + 1 := by
  refine c6_mapping_continuation.2.1 _ (by decide) ?_
  intro p hp
  rw [List.mem_singleton] at hp
  subst hp
  exact ⟨5, Or.inl rfl⟩

/-! ## Generic-text unmask (claim C5) -/

/-- C5 counterexample: with mapping `user -> m1`, the text `m1x` embeds the
placeholder at the start of a longer alphanumeric token, yet `unmask`
replaces it (producing `userx`): only the left boundary of an occurrence is
checked by the code, so partial matches inside longer tokens are not left
untouched. -/
theorem c5_counterexample :
    unmask (mkUnmasker [((("user").data : Lch), (("m1").data : Lch))]) (("m1x").data) =
      ("userx").data ∧ (("userx").data : Lch) ≠ ("m1x").data := by
  constructor
  · decide
  · decide

/-- C5 (amended): if the entire input exactly equals a known placeholder,
its original is returned directly; otherwise each known placeholder form
(bare, single-quoted, double-quoted) is replaced as a literal substring at
occurrences whose immediately preceding character in the rebuilt output is
absent or non-alphanumeric; the right-hand boundary is not checked, so an
occurrence continuing into further alphanumeric characters is still
replaced, while an occurrence immediately preceded by an alphanumeric
character is left untouched. -/
theorem c5_unmask_left_boundary :
    (∀ (u : Unmasker) (t o : Lch), t ≠ [] → mlookup u.rev t = some o → unmask u t = o) ∧
    (unmask (mkUnmasker [((("user").data : Lch), (("m1").data : Lch))]) (("foo m1 bar").data)
        = ("foo user bar").data) ∧
    (unmask (mkUnmasker [((("user").data : Lch), (("m1").data : Lch))]) (("xm1 y").data)
        = ("xm1 y").data) ∧
    (unmask (mkUnmasker [((("user").data : Lch), (("m1").data : Lch))]) (("m1x").data)
        = ("userx").data) ∧
    (unmask (mkUnmasker [((("user").data : Lch), (("m1").data : Lch))])
        (quoteC :: (("m1").data ++ [quoteC])) = quoteC :: (("user").data ++ [quoteC])) := by
  refine ⟨?_, by decide, by decide, by decide, by decide⟩
  intro u t o ht h
  rw [unmask, if_neg ht, h]

/-- Witness for C5: a whole-input placeholder is returned directly. -/
theorem c5_witness :
    unmask (mkUnmasker [((("user").data : Lch), (("m1").data : Lch))]) (("m1").data) =
      ("user").data := by
  refine c5_unmask_left_boundary.1 (mkUnmasker [((("user").data : Lch), (("m1").data : Lch))])
    (("m1").data) (("user").data) ?_ ?_
  · decide
  · decide

/-! ## Round trip (claim C1)

The masked output of a clean input decomposes into alternating segments:
word segments (placeholders and preserved keyword parts, all word
characters) and separator segments (whitespace, punctuation, dots, all
non-word characters).  The whole-word substitution pass of `decode`
operates segmentwise on such strings.
-/

theorem char_eq_of_toNat {c d : Char} (h : c.toNat = d.toNat) : c = d := by
  have h2 : Char.ofNat c.toNat = Char.ofNat d.toNat := by rw [h]
  rwa [Char.ofNat_toNat, Char.ofNat_toNat] at h2

theorem isWordC_iff {c : Char} : isWordC c = true ↔
    (97 ≤ c.toNat ∧ c.toNat ≤ 122) ∨ (65 ≤ c.toNat ∧ c.toNat ≤ 90) ∨
      (48 ≤ c.toNat ∧ c.toNat ≤ 57) ∨ c.toNat = 95 := by
  simp only [isWordC, Bool.or_eq_true, Bool.and_eq_true, decide_eq_true_eq, beq_iff_eq]
  tauto

theorem isWordC_false_of_toNat {c : Char}
    (h : ¬ ((97 ≤ c.toNat ∧ c.toNat ≤ 122) ∨ (65 ≤ c.toNat ∧ c.toNat ≤ 90) ∨
      (48 ≤ c.toNat ∧ c.toNat ≤ 57) ∨ c.toNat = 95)) : isWordC c = false := by
  cases hw : isWordC c
  · rfl
  · exact absurd (isWordC_iff.1 hw) h

inductive Seg where
  | word (w : Lch)
  | sep (t : Lch)
deriving DecidableEq, Repr

def segStr : Seg → Lch
  | Seg.word w => w
  | Seg.sep t => t

def flatS (l : List Seg) : Lch := (l.map segStr).flatten

def segOK : Seg → Prop
  | Seg.word w => w ≠ [] ∧ ∀ c ∈ w, isWordC c = true
  | Seg.sep t => t ≠ [] ∧ ∀ c ∈ t, isWordC c = false

def isWordSeg : Seg → Prop
  | Seg.word _ => True
  | Seg.sep _ => False

/-- Well-formed segment list: every segment is well formed and no two word
segments are adjacent. -/
def SegsOK (l : List Seg) : Prop :=
  (∀ sg ∈ l, segOK sg) ∧ l.Chain' (fun a b => isWordSeg a → isWordSeg b → False)

/-- Whether a string has the bare identifier-placeholder shape `m<digits>`. -/
def mShaped (p : Lch) : Bool :=
  match p with
  | c :: ds => c == 'm' && !ds.isEmpty && ds.all isDigitC
  | [] => false

theorem mShaped_mPh (n : Nat) : mShaped (mPh n) = true := by
  rw [mPh, mShaped]
  have h1 : (('m' == 'm') = true) := by decide
  have h2 : (natStr n).isEmpty = false := by
    rw [List.isEmpty_eq_false_iff_exists_mem]
    obtain ⟨d, r, hdr⟩ := List.exists_cons_of_ne_nil (natStr_ne_nil n)
    exact ⟨d, by rw [hdr]; exact List.mem_cons_self _ _⟩
  rw [h1, h2, List.all_eq_true.2 (natStr_all_digits n)]
  rfl

theorem mShaped_all_word {p : Lch} (h : mShaped p = true) :
    p ≠ [] ∧ ∀ c ∈ p, isWordC c = true := by
  match p with
  | [] => cases h
  | c :: ds =>
      rw [mShaped, Bool.and_eq_true, Bool.and_eq_true] at h
      obtain ⟨⟨hc, _⟩, hall⟩ := h
      have hc' : c = 'm' := by simpa using hc
      refine ⟨by simp, ?_⟩
      intro x hx
      rcases List.mem_cons.1 hx with rfl | hx
      · rw [hc']; decide
      · have hmem := List.all_eq_true.1 hall x hx
        have hb := isDigit_bounds hmem
        refine isWordC_iff.2 ?_
        omega

theorem isSpace_not_word {c : Char} (h : isSpaceC c = true) : isWordC c = false := by
  simp only [isSpaceC, Bool.or_eq_true, beq_iff_eq] at h
  refine isWordC_false_of_toNat ?_
  omega

theorem punct_all_not_word : punctChars.all (fun c => !(isWordC c)) = true := by decide

theorem punct_not_word {c : Char} (h : isPunctC c = true) : isWordC c = false := by
  have hmem : c ∈ punctChars := by
    rw [isPunctC] at h
    simpa using h
  have := List.all_eq_true.1 punct_all_not_word c hmem
  simpa using this

theorem identCont_word {c : Char} (h : identContC c = true) (hd : ¬ c = '.') :
    isWordC c = true := by
  rw [identContC, Bool.or_eq_true] at h
  rcases h with h | h
  · exact h
  · exfalso
    apply hd
    have hn : c.toNat = 46 := by simpa using h
    exact char_eq_of_toNat (by rw [hn]; rfl)

/-! ### Scanning lemmas for the whole-word substitution -/

theorem subGo_zero_cons (mask rep : Lch) (prev : Option Char) (c : Char) (l : Lch) :
    subGo mask rep prev 0 (c :: l) =
      (if mask.isPrefixOf (c :: l) && leftBd prev && rightBd ((c :: l).drop mask.length) then
        rep ++ subGo mask rep (some c) (mask.length - 1) l
       else c :: subGo mask rep (some c) 0 l) := rfl

theorem subGo_skip (mask rep : Lch) :
    ∀ (n : Nat) (l : Lch) (prev : Option Char), 1 ≤ n →
      ∃ prev', subGo mask rep prev n l = subGo mask rep prev' 0 (l.drop n) := by
  intro n
  induction n with
  | zero => intro l prev h; omega
  | succ n ih =>
      intro l prev _
      match l with
      | [] =>
          exact ⟨prev, by rw [List.drop_nil]; rfl⟩
      | c :: r =>
          rw [show subGo mask rep prev (n + 1) (c :: r) = subGo mask rep (some c) n r from rfl,
            List.drop_succ_cons]
          cases n with
          | zero => exact ⟨some c, rfl⟩
          | succ n => exact ih r (some c) (by omega)

theorem subGo_step_nomatch {mask rep : Lch} {prev : Option Char} {c : Char} {l : Lch}
    (h : ¬ (mask.isPrefixOf (c :: l) && leftBd prev
      && rightBd ((c :: l).drop mask.length)) = true) :
    subGo mask rep prev 0 (c :: l) = c :: subGo mask rep (some c) 0 l := by
  rw [subGo_zero_cons, if_neg h]

theorem subGo_step_leftblocked {mask rep : Lch} {prev : Option Char} {c : Char} {l : Lch}
    (h : leftBd prev = false) :
    subGo mask rep prev 0 (c :: l) = c :: subGo mask rep (some c) 0 l := by
  refine subGo_step_nomatch ?_
  intro hc
  rw [Bool.and_eq_true, Bool.and_eq_true] at hc
  rw [h] at hc
  exact Bool.false_ne_true hc.1.2

theorem subGo_step_sepchar {mask rep : Lch} {m0 : Char} {m' : Lch} {prev : Option Char}
    {c : Char} {l : Lch} (hm : mask = m0 :: m') (hm0 : isWordC m0 = true)
    (hc : isWordC c = false) :
    subGo mask rep prev 0 (c :: l) = c :: subGo mask rep (some c) 0 l := by
  refine subGo_step_nomatch ?_
  intro hcond
  rw [Bool.and_eq_true, Bool.and_eq_true] at hcond
  have hp := hcond.1.1
  rw [hm] at hp
  obtain ⟨u, hu⟩ := List.isPrefixOf_iff_prefix.1 hp
  rw [List.cons_append, List.cons.injEq] at hu
  rw [hu.1] at hm0
  rw [hc] at hm0
  cases hm0

/-- Scanning through a separator segment: no match can start on a non-word
character, and afterwards the previous character is non-word. -/
theorem subGo_sep {mask rep : Lch} {m0 : Char} {m' : Lch} (hm : mask = m0 :: m')
    (hm0 : isWordC m0 = true) :
    ∀ (t : Lch), t ≠ [] → (∀ c ∈ t, isWordC c = false) →
      ∀ (rest : Lch) (prev : Option Char),
        ∃ prev', subGo mask rep prev 0 (t ++ rest) = t ++ subGo mask rep prev' 0 rest ∧
          leftBd prev' = true := by
  intro t
  induction t with
  | nil => intro h; exact absurd rfl h
  | cons c t ih =>
      intro _ hall rest prev
      have hc := hall c (List.mem_cons_self _ _)
      rw [List.cons_append, subGo_step_sepchar hm hm0 hc]
      match t with
      | [] =>
          refine ⟨some c, rfl, ?_⟩
          rw [leftBd, hc]
          rfl
      | d :: t' =>
          obtain ⟨prev', h1, h2⟩ := ih (by simp)
            (fun x hx => hall x (List.mem_cons_of_mem _ hx)) rest (some c)
          exact ⟨prev', by rw [h1]; rfl, h2⟩

/-- Scanning through word characters when the previous character blocks any
match on the left: everything is copied. -/
theorem subGo_run {mask rep : Lch} :
    ∀ (w : Lch), (∀ c ∈ w, isWordC c = true) →
      ∀ (rest : Lch) (prev : Option Char), leftBd prev = false →
        ∃ prev', subGo mask rep prev 0 (w ++ rest) = w ++ subGo mask rep prev' 0 rest ∧
          leftBd prev' = false := by
  intro w
  induction w with
  | nil => intro _ rest prev hprev; exact ⟨prev, rfl, hprev⟩
  | cons c w ih =>
      intro hall rest prev hprev
      have hc := hall c (List.mem_cons_self _ _)
      rw [List.cons_append, subGo_step_leftblocked hprev]
      obtain ⟨prev', h1, h2⟩ := ih (fun x hx => hall x (List.mem_cons_of_mem _ hx)) rest
        (some c) (by rw [leftBd, hc]; rfl)
      exact ⟨prev', by rw [h1, List.cons_append], h2⟩

/-- A whole-word-bounded prefix occurrence of a word-only mask at the start
of a word run must be the entire run. -/
theorem prefix_word_eq {mask w rest : Lch}
    (hmw : ∀ c ∈ mask, isWordC c = true) (hww : ∀ c ∈ w, isWordC c = true)
    (hrest : rightBd rest = true)
    (hpre : mask.isPrefixOf (w ++ rest) = true)
    (hrb : rightBd ((w ++ rest).drop mask.length) = true) :
    mask = w := by
  have hmtake : mask = (w ++ rest).take mask.length := by
    have := List.isPrefixOf_iff_prefix.1 hpre
    exact List.prefix_iff_eq_take.1 this
  rcases Nat.lt_or_ge mask.length w.length with hlt | hge
  · exfalso
    have hdrop : (w ++ rest).drop mask.length = w.drop mask.length ++ rest := by
      rw [List.drop_append_eq_append_drop, Nat.sub_eq_zero_of_le (le_of_lt hlt), List.drop_zero]
    obtain ⟨x, l, hx⟩ := List.exists_cons_of_ne_nil
      (show w.drop mask.length ≠ [] from by
        intro hnil
        have := congrArg List.length hnil
        rw [List.length_drop] at this
        simp only [List.length_nil] at this
        omega)
    rw [hdrop, hx, List.cons_append] at hrb
    have hxw : isWordC x = true := by
      refine hww x ?_
      have hmem : x ∈ w.drop mask.length := by rw [hx]; exact List.mem_cons_self _ _
      exact (List.drop_suffix _ _).subset hmem
    rw [rightBd, hxw] at hrb
    cases hrb
  · rcases Nat.eq_or_lt_of_le hge with heq | hgt
    · rw [hmtake, List.take_append_eq_append_take, heq, Nat.sub_self, List.take_zero,
        List.append_nil, ← heq, List.take_length]
    · exfalso
      match rest, hrest with
      | [], _ =>
          rw [List.append_nil] at hmtake
          have := congrArg List.length hmtake
          rw [List.length_take] at this
          omega
      | r0 :: rest', hr =>
          have hr0 : isWordC r0 = false := by
            rw [rightBd] at hr
            simpa using hr
          have hr0m : r0 ∈ mask := by
            rw [hmtake, List.take_append_eq_append_take]
            refine List.mem_append_right _ ?_
            have hk : 1 ≤ mask.length - w.length := by omega
            match hx : mask.length - w.length, hk with
            | k + 1, _ =>
                rw [List.take_succ_cons]
                exact List.mem_cons_self _ _
          rw [hmw r0 hr0m] at hr0
          cases hr0

/-- A kept word run: the mask does not occur whole-word inside a word run
different from it; the run is copied unchanged. -/
theorem subGo_kept {mask rep : Lch} (hmall : ∀ c ∈ mask, isWordC c = true) :
    ∀ (w rest : Lch) (prev : Option Char), w ≠ [] → (∀ c ∈ w, isWordC c = true) →
      w ≠ mask → rightBd rest = true →
      ∃ prev', subGo mask rep prev 0 (w ++ rest) = w ++ subGo mask rep prev' 0 rest := by
  intro w rest prev hwne hww hwm hrest
  cases hprev : leftBd prev
  · obtain ⟨prev', h1, _⟩ := subGo_run w hww rest prev hprev
    exact ⟨prev', h1⟩
  · match w, hwne with
    | c :: w', _ =>
        have hstep : subGo mask rep prev 0 ((c :: w') ++ rest) =
            c :: subGo mask rep (some c) 0 (w' ++ rest) := by
          rw [List.cons_append]
          refine subGo_step_nomatch ?_
          intro hcond
          rw [Bool.and_eq_true, Bool.and_eq_true] at hcond
          refine hwm ?_
          refine (prefix_word_eq hmall hww hrest ?_ ?_).symm
          · rw [List.cons_append]
            exact hcond.1.1
          · rw [List.cons_append]
            exact hcond.2
        have hc : isWordC c = true := hww c (List.mem_cons_self _ _)
        obtain ⟨prev', h1, _⟩ := subGo_run w'
          (fun x hx => hww x (List.mem_cons_of_mem _ hx)) rest (some c)
          (by rw [leftBd, hc]; rfl)
        exact ⟨prev', by rw [hstep, h1]; rfl⟩

/-- A whole-word occurrence of the mask itself is replaced and scanning
resumes after it. -/
theorem subGo_mask {mask rep : Lch} (hmne : mask ≠ [])
    (hmall : ∀ c ∈ mask, isWordC c = true) :
    ∀ (rest : Lch) (prev : Option Char), leftBd prev = true → rightBd rest = true →
      ∃ prev', subGo mask rep prev 0 (mask ++ rest) = rep ++ subGo mask rep prev' 0 rest := by
  intro rest prev hprev hrest
  match mask, hmne with
  | m0 :: m', _ =>
      have hpre : (m0 :: m').isPrefixOf (m0 :: (m' ++ rest)) = true := by
        have := isPrefixOf_append (m0 :: m') rest
        rwa [List.cons_append] at this
      have hdrop : (m0 :: (m' ++ rest)).drop (m0 :: m').length = rest := by
        rw [show (m0 :: m').length = m'.length + 1 from rfl, List.drop_succ_cons,
          List.drop_left]
      have hstep : subGo (m0 :: m') rep prev 0 ((m0 :: m') ++ rest) =
          rep ++ subGo (m0 :: m') rep (some m0) ((m0 :: m').length - 1) (m' ++ rest) := by
        rw [List.cons_append, subGo_zero_cons, if_pos (by rw [hpre, hprev, hdrop, hrest]; rfl)]
      match hm' : m' with
      | [] => exact ⟨some m0, by rw [hstep]; rfl⟩
      | d :: m'' =>
          obtain ⟨prev', hskip⟩ := subGo_skip (m0 :: d :: m'') rep
            ((m0 :: d :: m'').length - 1) ((d :: m'') ++ rest) (some m0) (by simp)
          refine ⟨prev', by
            rw [hstep, hskip,
              show ((d :: m'') ++ rest).drop ((m0 :: d :: m'').length - 1) = rest from by
                rw [show (m0 :: d :: m'').length - 1 = (d :: m'').length from rfl,
                  List.drop_left]]⟩

/-- Replace a whole-word segment equal to the mask. -/
def replSeg (mask rep : Lch) : Seg → Seg
  | Seg.word w => Seg.word (if w = mask then rep else w)
  | Seg.sep t => Seg.sep t

theorem flatS_cons (sg : Seg) (l : List Seg) : flatS (sg :: l) = segStr sg ++ flatS l := by
  rw [flatS, List.map_cons, List.flatten_cons]
  rfl

/-- The whole-word substitution acts segmentwise on a well-formed segment
list: word segments equal to the mask are replaced, all else is copied. -/
theorem subWB_segs {mask rep : Lch} (hmne : mask ≠ [])
    (hmall : ∀ c ∈ mask, isWordC c = true) :
    ∀ (segs : List Seg) (prev : Option Char), SegsOK segs →
      (leftBd prev = false → ∀ w, segs.head? = some (Seg.word w) → False) →
      subGo mask rep prev 0 (flatS segs) = flatS (segs.map (replSeg mask rep)) := by
  intro segs
  induction segs with
  | nil => intro prev _ _; rfl
  | cons sg rest ih =>
      intro prev hok hhead
      obtain ⟨hall, hchain⟩ := hok
      have hokrest : SegsOK rest := ⟨fun x hx => hall x (List.mem_cons_of_mem _ hx), hchain.tail⟩
      have hresthead : ∀ w', rest.head? = some (Seg.word w') → isWordSeg sg → False := by
        intro w' hw' hsg
        match rest, hw' with
        | Seg.word w' :: rest', _ =>
            exact (List.chain'_cons.1 hchain).1 hsg trivial
      match sg with
      | Seg.sep t =>
          obtain ⟨htne, htnw⟩ := hall (Seg.sep t) (List.mem_cons_self _ _)
          obtain ⟨m0, m'', hm⟩ := List.exists_cons_of_ne_nil hmne
          have hm0 : isWordC m0 = true := by
            refine hmall m0 ?_
            rw [hm]
            exact List.mem_cons_self _ _
          obtain ⟨prev', h1, h2⟩ := @subGo_sep mask rep m0 m'' hm hm0 t htne htnw (flatS rest) prev
          rw [flatS_cons, show segStr (Seg.sep t) = t from rfl, h1,
            ih prev' hokrest (fun hf => by rw [h2] at hf; cases hf),
            List.map_cons, flatS_cons]
          rfl
      | Seg.word w =>
          obtain ⟨hwne, hww⟩ := hall (Seg.word w) (List.mem_cons_self _ _)
          have hprev : leftBd prev = true := by
            cases hp : leftBd prev
            · exact absurd (hhead hp w rfl) (fun h => h)
            · rfl
          have hrb : rightBd (flatS rest) = true := by
            match rest, hresthead with
            | [], _ => rfl
            | Seg.word w' :: rest', hh => exact absurd (hh w' rfl trivial) (fun h => h)
            | Seg.sep t' :: rest', _ =>
                obtain ⟨ht'ne, ht'nw⟩ := hall (Seg.sep t')
                  (List.mem_cons_of_mem _ (List.mem_cons_self _ _))
                match t', ht'ne with
                | c' :: t'', _ =>
                    rw [flatS_cons, show segStr (Seg.sep (c' :: t'')) = c' :: t'' from rfl,
                      List.cons_append, rightBd, ht'nw c' (List.mem_cons_self _ _)]
                    rfl
          have hihhyp : ∀ prev'', leftBd prev'' = false →
              ∀ w', rest.head? = some (Seg.word w') → False := by
            intro prev'' _ w' hw'
            match rest, hw' with
            | Seg.word w' :: rest', _ =>
                exact (List.chain'_cons.1 hchain).1 trivial trivial
          by_cases hwm : w = mask
          · obtain ⟨prev', h1⟩ := subGo_mask hmne hmall (flatS rest) prev hprev hrb
            rw [flatS_cons, show segStr (Seg.word w) = w from rfl, hwm, h1,
              ih prev' hokrest (hihhyp prev'), List.map_cons, flatS_cons,
              show replSeg mask rep (Seg.word mask) = Seg.word rep from by
                rw [replSeg, if_pos rfl]]
            rfl
          · obtain ⟨prev', h1⟩ := subGo_kept hmall w (flatS rest) prev hwne hww hwm hrb
            rw [flatS_cons, show segStr (Seg.word w) = w from rfl, h1,
              ih prev' hokrest (hihhyp prev'), List.map_cons, flatS_cons,
              show replSeg mask rep (Seg.word w) = Seg.word w from by
                rw [replSeg, if_neg hwm]]
            rfl

/-! ### The identifier pass as a fold of whole-word substitutions -/

/-- The intended effect of the identifier pass on a segment list: word
segments that are masks of `L` are restored through the reverse mapping. -/
def restoreSegs (rev : List (Lch × Lch)) (L : List Lch) (segs : List Seg) : List Seg :=
  segs.map fun sg => match sg with
    | Seg.word w => Seg.word (if w ∈ L then (mlookup rev w).getD w else w)
    | Seg.sep t => Seg.sep t

theorem segsOK_map_repl {mask rep : Lch} {segs : List Seg} (hok : SegsOK segs)
    (hrne : rep ≠ []) (hrw : ∀ c ∈ rep, isWordC c = true) :
    SegsOK (segs.map (replSeg mask rep)) := by
  obtain ⟨hall, hchain⟩ := hok
  constructor
  · intro sg hsg
    obtain ⟨sg0, hsg0, rfl⟩ := List.mem_map.1 hsg
    match sg0 with
    | Seg.word w =>
        rw [replSeg]
        by_cases hwm : w = mask
        · rw [if_pos hwm]
          exact ⟨hrne, hrw⟩
        · rw [if_neg hwm]
          exact hall (Seg.word w) hsg0
    | Seg.sep t => exact hall (Seg.sep t) hsg0
  · rw [List.chain'_map]
    refine hchain.imp ?_
    intro a b hab
    match a, b with
    | Seg.word wa, Seg.word wb => intro _ _; exact hab trivial trivial
    | Seg.word wa, Seg.sep tb => intro _ hb; exact hb
    | Seg.sep ta, _ => intro ha _; exact ha

theorem foldl_subWB (rev : List (Lch × Lch)) :
    ∀ (L : List Lch) (segs : List Seg),
      SegsOK segs →
      (∀ mask ∈ L, mShaped mask = true ∧
        ∃ orig, mlookup rev mask = some orig ∧ orig ≠ [] ∧
          (∀ c ∈ orig, isWordC c = true) ∧ mShaped orig = false) →
      (∀ w, Seg.word w ∈ segs → (w ∈ L ∨ mShaped w = false)) →
      L.foldl (fun r mk => match mlookup rev mk with
        | some o => pySubWB mk o r
        | none => r) (flatS segs) = flatS (restoreSegs rev L segs) := by
  intro L
  induction L with
  | nil =>
      intro segs _ _ _
      rw [List.foldl_nil]
      congr 1
      rw [restoreSegs]
      have : ∀ segs' : List Seg, segs'.map (fun sg => match sg with
          | Seg.word w => Seg.word (if w ∈ ([] : List Lch) then (mlookup rev w).getD w else w)
          | Seg.sep t => Seg.sep t) = segs' := by
        intro segs'
        induction segs' with
        | nil => rfl
        | cons sg rest ih =>
            rw [List.map_cons, ih]
            congr 1
            match sg with
            | Seg.word w =>
                show Seg.word (if w ∈ ([] : List Lch) then (mlookup rev w).getD w else w) = _
                rw [if_neg (by simp)]
            | Seg.sep t => rfl
      rw [this]
  | cons mask L' ih =>
      intro segs hok hL hsegs
      obtain ⟨hmsh, orig, horig, hone, horw, horsh⟩ := hL mask (List.mem_cons_self _ _)
      obtain ⟨hmne, hmall⟩ := mShaped_all_word hmsh
      rw [List.foldl_cons]
      simp only [horig]
      rw [show pySubWB mask orig (flatS segs) =
          flatS (segs.map (replSeg mask orig)) from by
        rw [pySubWB]
        exact subWB_segs hmne hmall segs none hok
          (fun hf => by rw [show leftBd none = true from rfl] at hf; cases hf)]
      rw [ih (segs.map (replSeg mask orig)) (segsOK_map_repl hok hone horw)
        (fun mk hmk => hL mk (List.mem_cons_of_mem _ hmk)) ?_]
      · congr 1
        rw [restoreSegs, restoreSegs, List.map_map]
        refine List.map_congr_left ?_
        intro sg hsg
        match sg with
        | Seg.sep t => rfl
        | Seg.word w =>
            by_cases hwm : w = mask
            · have hnotin : orig ∉ L' := by
                intro hin
                obtain ⟨hsh, _⟩ := hL orig (List.mem_cons_of_mem _ hin)
                rw [horsh] at hsh
                cases hsh
              have hrepl : replSeg mask orig (Seg.word w) = Seg.word orig := by
                rw [replSeg, if_pos hwm]
              rw [Function.comp_apply, hrepl]
              show Seg.word (if orig ∈ L' then (mlookup rev orig).getD orig else orig)
                = Seg.word (if w ∈ mask :: L' then (mlookup rev w).getD w else w)
              rw [if_neg hnotin,
                if_pos (show w ∈ mask :: L' from by rw [hwm]; exact List.mem_cons_self _ _),
                hwm, horig]
              rfl
            · have hrepl : replSeg mask orig (Seg.word w) = Seg.word w := by
                rw [replSeg, if_neg hwm]
              rw [Function.comp_apply, hrepl]
              show Seg.word (if w ∈ L' then (mlookup rev w).getD w else w)
                = Seg.word (if w ∈ mask :: L' then (mlookup rev w).getD w else w)
              by_cases hwL : w ∈ L'
              · rw [if_pos hwL, if_pos (List.mem_cons_of_mem _ hwL)]
              · rw [if_neg hwL, if_neg (show w ∉ mask :: L' from by
                    intro hin
                    rcases List.mem_cons.1 hin with h | h
                    · exact hwm h
                    · exact hwL h)]
      · intro w hw
        obtain ⟨sg0, hsg0, heq⟩ := List.mem_map.1 hw
        cases sg0 with
        | sep t =>
            rw [show replSeg mask orig (Seg.sep t) = Seg.sep t from rfl] at heq
            exact Seg.noConfusion heq
        | word w0 =>
            rw [show replSeg mask orig (Seg.word w0) =
                Seg.word (if w0 = mask then orig else w0) from rfl] at heq
            injection heq with h
            by_cases hw0 : w0 = mask
            · rw [if_pos hw0] at h
              rw [← h]
              exact Or.inr horsh
            · rw [if_neg hw0] at h
              rw [← h]
              rcases hsegs w0 hsg0 with hin | hsh
              · rcases List.mem_cons.1 hin with h2 | h2
                · exact absurd h2 hw0
                · exact Or.inl h2
              · exact Or.inr hsh

/-! ### Reverse-mapping lemmas -/

theorem dictInsert_lookup_self (k v : Lch) (d : List (Lch × Lch)) :
    mlookup (dictInsert k v d) k = some v := by
  induction d with
  | nil => exact mlookup_singleton
  | cons a d ih =>
      obtain ⟨a1, a2⟩ := a
      rw [dictInsert]
      by_cases ha : (a1 == k) = true
      · rw [if_pos ha]
        exact mlookup_cons_pos (show (((a1, v) : Lch × Lch).1 == k) = true from ha)
      · rw [if_neg ha,
          mlookup_cons_neg (show ¬ (((a1, a2) : Lch × Lch).1 == k) = true from ha)]
        exact ih

theorem dictInsert_lookup_other {k x : Lch} (v : Lch) (d : List (Lch × Lch)) (hne : x ≠ k) :
    mlookup (dictInsert k v d) x = mlookup d x := by
  induction d with
  | nil =>
      rw [dictInsert,
        mlookup_cons_neg (show ¬ (((k, v) : Lch × Lch).1 == x) = true from by
          simp only [beq_iff_eq]
          exact fun h => hne h.symm)]
  | cons a d ih =>
      obtain ⟨a1, a2⟩ := a
      rw [dictInsert]
      by_cases ha : (a1 == k) = true
      · rw [if_pos ha]
        have hax : ¬ (a1 == x) = true := by
          intro hx
          apply hne
          have h1 : a1 = k := by simpa using ha
          have h2 : a1 = x := by simpa using hx
          rw [← h2, h1]
        rw [mlookup_cons_neg (show ¬ (((a1, v) : Lch × Lch).1 == x) = true from hax),
          mlookup_cons_neg (show ¬ (((a1, a2) : Lch × Lch).1 == x) = true from hax)]
      · rw [if_neg ha]
        by_cases hax : (a1 == x) = true
        · rw [mlookup_cons_pos (show (((a1, a2) : Lch × Lch).1 == x) = true from hax),
            mlookup_cons_pos (show (((a1, a2) : Lch × Lch).1 == x) = true from hax)]
        · rw [mlookup_cons_neg (show ¬ (((a1, a2) : Lch × Lch).1 == x) = true from hax),
            mlookup_cons_neg (show ¬ (((a1, a2) : Lch × Lch).1 == x) = true from hax)]
          exact ih

theorem dictInsert_mem {q : Lch × Lch} {k v : Lch} {d : List (Lch × Lch)}
    (h : q ∈ dictInsert k v d) : q = (k, v) ∨ q ∈ d := by
  induction d with
  | nil => simpa [dictInsert] using h
  | cons a d ih =>
      obtain ⟨a1, a2⟩ := a
      rw [dictInsert] at h
      by_cases ha : (a1 == k) = true
      · rw [if_pos ha] at h
        rcases List.mem_cons.1 h with rfl | h
        · left
          have h1 : a1 = k := by simpa using ha
          rw [h1]
        · exact Or.inr (List.mem_cons_of_mem _ h)
      · rw [if_neg ha] at h
        rcases List.mem_cons.1 h with rfl | h
        · exact Or.inr (List.mem_cons_self _ _)
        · rcases ih h with h | h
          · exact Or.inl h
          · exact Or.inr (List.mem_cons_of_mem _ h)

theorem revAux_mem {q : Lch × Lch} :
    ∀ (m acc : List (Lch × Lch)),
      q ∈ m.foldl (fun a p => dictInsert p.2 p.1 a) acc →
      q ∈ acc ∨ ∃ p ∈ m, q = (p.2, p.1) := by
  intro m
  induction m with
  | nil => intro acc h; exact Or.inl h
  | cons p m ih =>
      intro acc h
      rw [List.foldl_cons] at h
      rcases ih _ h with h | ⟨p', hp', rfl⟩
      · rcases dictInsert_mem h with rfl | h
        · exact Or.inr ⟨p, List.mem_cons_self _ _, rfl⟩
        · exact Or.inl h
      · exact Or.inr ⟨p', List.mem_cons_of_mem _ hp', rfl⟩

theorem revMap_mem {q : Lch × Lch} {m : List (Lch × Lch)} (h : q ∈ revMap m) :
    ∃ p ∈ m, q = (p.2, p.1) := by
  rcases revAux_mem m [] h with h | h
  · cases h
  · exact h

theorem revAux_lookup_notval {v : Lch} :
    ∀ (m : List (Lch × Lch)) (acc : List (Lch × Lch)),
      (∀ q ∈ m, q.2 ≠ v) →
      mlookup (m.foldl (fun a p => dictInsert p.2 p.1 a) acc) v = mlookup acc v := by
  intro m
  induction m with
  | nil => intro acc _; rfl
  | cons p m ih =>
      intro acc hno
      rw [List.foldl_cons, ih _ (fun q hq => hno q (List.mem_cons_of_mem _ hq)),
        dictInsert_lookup_other _ _ (fun he => hno p (List.mem_cons_self _ _) he.symm)]

theorem revMap_lookup {m : List (Lch × Lch)} {k v : Lch}
    (hmem : (k, v) ∈ m)
    (huniq : ∀ q ∈ m, q.2 = v → q.1 = k) :
    mlookup (revMap m) v = some k := by
  rw [revMap]
  have H : ∀ (m' : List (Lch × Lch)) (acc : List (Lch × Lch)),
      (k, v) ∈ m' → (∀ q ∈ m', q.2 = v → q.1 = k) →
      mlookup (m'.foldl (fun a p => dictInsert p.2 p.1 a) acc) v = some k := by
    intro m'
    induction m' with
    | nil => intro acc h; cases h
    | cons p m' ih =>
        intro acc hmem huniq
        rw [List.foldl_cons]
        rcases List.mem_cons.1 hmem with heq | hmem'
        · by_cases hlater : ∃ q ∈ m', q.2 = v
          · obtain ⟨q, hq, hqv⟩ := hlater
            have : q.1 = k := huniq q (List.mem_cons_of_mem _ hq) hqv
            refine ih _ ?_ (fun q' hq' hv' => huniq q' (List.mem_cons_of_mem _ hq') hv')
            rw [← this, ← hqv]
            exact hq
          · push_neg at hlater
            rw [revAux_lookup_notval m' _ hlater]
            show mlookup (dictInsert p.2 p.1 acc) v = some k
            rw [← heq]
            show mlookup (dictInsert v k acc) v = some k
            exact dictInsert_lookup_self v k acc
        · exact ih _ hmem' (fun q' hq' hv' => huniq q' (List.mem_cons_of_mem _ hq') hv')
  exact H m [] hmem huniq

/-! ### Stable sort permutation -/

theorem insDesc_perm (x : Lch) (l : List Lch) : List.Perm (insDesc x l) (x :: l) := by
  induction l with
  | nil => exact List.Perm.refl _
  | cons y ys ih =>
      rw [insDesc]
      by_cases h : y.length > x.length
      · rw [if_pos h]
        exact (ih.cons y).trans (List.Perm.swap x y ys)
      · rw [if_neg h]

theorem sortDesc_perm (l : List Lch) : List.Perm (sortDesc l) l := by
  induction l with
  | nil => exact List.Perm.refl _
  | cons x xs ih =>
      rw [sortDesc]
      exact (insDesc_perm x (sortDesc xs)).trans (ih.cons x)

/-! ### Clean inputs and dotted segment lists -/

/-- The word-restoration applied to one word segment by `restoreSegs`. -/
def restoreW (rev : List (Lch × Lch)) (L : List Lch) (w : Lch) : Lch :=
  if w ∈ L then (mlookup rev w).getD w else w

/-- A dot-part that the identifier pass of `decode` can restore faithfully:
nonempty, made of word characters, and not itself of placeholder shape. -/
def cleanPart (p : Lch) : Bool := !p.isEmpty && p.all isWordC && !(mShaped p)

/-- Tokens whose round trip is exact: whitespace, punctuation, and
identifiers all of whose dot-parts are clean. -/
def CleanTok : Token → Bool
  | (TKind.ident, v) => (v.splitOn '.').all cleanPart
  | (TKind.ws, _) => true
  | (TKind.punct, _) => true
  | _ => false

/-- An input on which the round trip is exact: it tokenizes into
whitespace, punctuation and clean identifiers only. -/
def CleanSql (s : Lch) : Bool := (tokenize s).all CleanTok

theorem cleanPart_spec {p : Lch} (h : cleanPart p = true) :
    p ≠ [] ∧ (∀ c ∈ p, isWordC c = true) ∧ mShaped p = false := by
  rw [cleanPart, Bool.and_eq_true, Bool.and_eq_true] at h
  obtain ⟨⟨h1, h2⟩, h3⟩ := h
  refine ⟨?_, ?_, ?_⟩
  · intro he
    rw [he] at h1
    simp at h1
  · exact fun c hc => List.all_eq_true.1 h2 c hc
  · rwa [Bool.not_eq_true'] at h3

/-- Alternating word/separator segments of a dotted name. -/
def dottedSegs : List Lch → List Seg
  | [] => []
  | [p] => [Seg.word p]
  | p :: q :: r => Seg.word p :: Seg.sep ['.'] :: dottedSegs (q :: r)

theorem flatS_dottedSegs : ∀ ps : List Lch, flatS (dottedSegs ps) = List.intercalate ['.'] ps
  | [] => by simp [dottedSegs, flatS, List.intercalate, List.intersperse]
  | [p] => by simp [dottedSegs, flatS, List.intercalate, List.intersperse, segStr]
  | p :: q :: r => by
      rw [dottedSegs, flatS_cons, flatS_cons, flatS_dottedSegs (q :: r)]
      simp [List.intercalate, List.intersperse, segStr]

theorem dottedSegs_word_mem {w : Lch} : ∀ {ps : List Lch},
    Seg.word w ∈ dottedSegs ps → w ∈ ps
  | [], h => by cases h
  | [p], h => by
      rw [dottedSegs, List.mem_singleton] at h
      injection h with h2
      rw [h2]
      exact List.mem_singleton.2 rfl
  | p :: q :: r, h => by
      rw [dottedSegs] at h
      rcases List.mem_cons.1 h with h | h
      · injection h with h2
        rw [h2]
        exact List.mem_cons_self _ _
      · rcases List.mem_cons.1 h with h | h
        · cases h
        · exact List.mem_cons_of_mem _ (dottedSegs_word_mem h)

theorem dottedSegs_ok : ∀ {ps : List Lch},
    (∀ p ∈ ps, p ≠ [] ∧ ∀ c ∈ p, isWordC c = true) → SegsOK (dottedSegs ps)
  | [], _ => ⟨fun _ h => (nomatch h), List.chain'_nil⟩
  | [p], h => by
      refine ⟨?_, ?_⟩
      · intro sg hsg
        rw [dottedSegs, List.mem_singleton] at hsg
        rw [hsg]
        exact h p (List.mem_singleton.2 rfl)
      · rw [dottedSegs]
        exact List.chain'_singleton _
  | p :: q :: r, h => by
      obtain ⟨hall, hch⟩ := dottedSegs_ok (fun x hx => h x (List.mem_cons_of_mem _ hx))
      refine ⟨?_, ?_⟩
      · intro sg hsg
        rw [dottedSegs] at hsg
        rcases List.mem_cons.1 hsg with rfl | hsg
        · exact h p (List.mem_cons_self _ _)
        · rcases List.mem_cons.1 hsg with rfl | hsg
          · exact ⟨by simp, by
              intro c hc
              rw [List.mem_singleton] at hc
              rw [hc]
              decide⟩
          · exact hall sg hsg
      · rw [dottedSegs]
        refine List.Chain'.cons ?_ ?_
        · intro _ hb
          exact hb
        · have hhead : ∀ sg, (dottedSegs (q :: r)).head? = some sg →
              (isWordSeg (Seg.sep ['.']) → isWordSeg sg → False) := by
            intro sg _ ha _
            exact ha
          match r with
          | [] =>
              refine List.Chain'.cons ?_ hch
              intro ha _
              exact ha
          | x :: r' =>
              refine List.Chain'.cons ?_ hch
              intro ha _
              exact ha

theorem dottedSegs_head {p : Lch} {ps : List Lch} :
    (dottedSegs (p :: ps)).head? = some (Seg.word p) := by
  match ps with
  | [] => rfl
  | q :: r => rfl

theorem restoreSegs_dottedSegs (rev : List (Lch × Lch)) (L : List Lch) :
    ∀ os : List Lch, restoreSegs rev L (dottedSegs os) = dottedSegs (os.map (restoreW rev L))
  | [] => rfl
  | [o] => rfl
  | o :: q :: r => by
      rw [show (o :: q :: r).map (restoreW rev L) =
          restoreW rev L o :: (q :: r).map (restoreW rev L) from rfl]
      rw [dottedSegs, restoreSegs, List.map_cons, List.map_cons]
      have htail := restoreSegs_dottedSegs rev L (q :: r)
      rw [restoreSegs] at htail
      rw [htail]
      match hm : (q :: r).map (restoreW rev L) with
      | [] => cases hm
      | x :: t => rfl

theorem forall₂_map_eq {rev : List (Lch × Lch)} {L : List Lch} :
    ∀ {os ps : List Lch}, List.Forall₂ (fun o p => restoreW rev L o = p) os ps →
      os.map (restoreW rev L) = ps := by
  intro os ps h
  induction h with
  | nil => rfl
  | cons h _ ih => rw [List.map_cons, h, ih]

/-! ### Further association-list lemmas for the reverse mapping -/

theorem pairwise_val_inj {M : List (Lch × Lch)} {k v : Lch} {q : Lch × Lch}
    (hp : List.Pairwise (fun a b => a.2 ≠ b.2) M)
    (hkv : (k, v) ∈ M) (hq : q ∈ M) (hqv : q.2 = v) : q = (k, v) := by
  induction M with
  | nil => cases hkv
  | cons a M ih =>
      rw [List.pairwise_cons] at hp
      obtain ⟨hone, hp'⟩ := hp
      rcases List.mem_cons.1 hkv with rfl | hkv'
      · rcases List.mem_cons.1 hq with rfl | hq'
        · rfl
        · have hne : (k, v).2 ≠ q.2 := hone q hq'
          exact absurd hqv (fun hh => hne (show (k, v).2 = q.2 from hh.symm))
      · rcases List.mem_cons.1 hq with rfl | hq'
        · exact absurd (show q.2 = (k, v).2 from hqv) (hone (k, v) hkv')
        · exact ih hp' hkv' hq'

theorem mlookup_of_mem_keys {d : List (Lch × Lch)} {k : Lch}
    (h : ∃ q ∈ d, q.1 = k) : ∃ v, mlookup d k = some v := by
  induction d with
  | nil =>
      obtain ⟨q, hq, _⟩ := h
      cases hq
  | cons a d ih =>
      by_cases ha : (a.1 == k) = true
      · exact ⟨a.2, mlookup_cons_pos ha⟩
      · rw [mlookup_cons_neg ha]
        obtain ⟨q, hq, hqk⟩ := h
        rcases List.mem_cons.1 hq with rfl | hq'
        · exact absurd (by simpa using hqk) ha
        · exact ih ⟨q, hq', hqk⟩

theorem mlookup_none_of_keys {d : List (Lch × Lch)} {k : Lch}
    (h : ∀ q ∈ d, q.1 ≠ k) : mlookup d k = none := by
  rw [mlookup, List.find?_eq_none.2]
  · rfl
  · intro q hq
    simpa using h q hq

theorem flatS_append (l1 l2 : List Seg) : flatS (l1 ++ l2) = flatS l1 ++ flatS l2 := by
  rw [flatS, flatS, flatS, List.map_append, List.flatten_append]

theorem restoreSegs_append (rev : List (Lch × Lch)) (L : List Lch) (l1 l2 : List Seg) :
    restoreSegs rev L (l1 ++ l2) = restoreSegs rev L l1 ++ restoreSegs rev L l2 := by
  rw [restoreSegs, restoreSegs, restoreSegs, List.map_append]

theorem encodeToks_cons (st : MState) (t : Token) (ts : List Token) :
    encodeToks st (t :: ts) =
      ((maskToken st t).1 ++ (encodeToks (maskToken st t).2 ts).1,
        (encodeToks (maskToken st t).2 ts).2) := rfl

theorem maskToken_ws (st : MState) (v : Lch) :
    maskToken st (TKind.ws, v) = (v, st) := rfl

theorem maskToken_punct (st : MState) (v : Lch) :
    maskToken st (TKind.punct, v) = (v, st) := rfl

theorem maskToken_ident_kw {st : MState} {v : Lch} (hk : isKeyword v = true) :
    maskToken st (TKind.ident, v) = (v, st) := by
  simp [maskToken, hk]

theorem maskToken_ident_multi {st : MState} {v : Lch} (hk : ¬ isKeyword v = true)
    (hl : (v.splitOn '.').length > 1) :
    maskToken st (TKind.ident, v) =
      (List.intercalate ['.'] (maskParts st (v.splitOn '.')).1,
        (maskParts st (v.splitOn '.')).2) := by
  simp [maskToken, hk, hl]

theorem maskToken_ident_single {st : MState} {v : Lch} (hk : ¬ isKeyword v = true)
    (hl : ¬ (v.splitOn '.').length > 1) :
    maskToken st (TKind.ident, v) = lookupOrAssign st v mPh := by
  simp [maskToken, hk, hl]

theorem intercalate_single (s : Lch) (x : Lch) :
    List.intercalate s [x] = x := by
  simp [List.intercalate, List.intersperse]

theorem splitOn_char_ne_nil (v : Lch) : v.splitOn '.' ≠ [] := by
  show v.splitOnP (fun c => c == '.') ≠ []
  exact List.splitOnP_ne_nil _ v

theorem splitOn_single {v : Lch} (h : ¬ (v.splitOn '.').length > 1) :
    v.splitOn '.' = [v] := by
  obtain ⟨x, t, hx⟩ := List.exists_cons_of_ne_nil (splitOn_char_ne_nil v)
  have hlen : (v.splitOn '.').length = t.length + 1 := by rw [hx]; rfl
  have ht : t = [] := by
    match t, hlen with
    | [], _ => rfl
    | y :: t', hlen =>
        rw [hlen] at h
        exact absurd (by simp only [List.length_cons]; omega) h
  rw [ht] at hx
  have hic : List.intercalate ['.'] (v.splitOn '.') = v := List.intercalate_splitOn v '.'
  rw [hx, intercalate_single] at hic
  rw [hx, hic]

theorem forall₂_mem_left {R : Lch → Lch → Prop} :
    ∀ {os ps : List Lch}, List.Forall₂ R os ps → ∀ o ∈ os, ∃ p ∈ ps, R o p := by
  intro os ps h
  induction h with
  | nil => intro o ho; cases ho
  | cons hr _ ih =>
      intro o ho
      rcases List.mem_cons.1 ho with rfl | ho
      · exact ⟨_, List.mem_cons_self _ _, hr⟩
      · obtain ⟨p, hp, hop⟩ := ih o ho
        exact ⟨p, List.mem_cons_of_mem _ hp, hop⟩

theorem mPh_head (n : Nat) : (mPh n).head? = some 'm' := rfl

theorem mPh_inj {a b : Nat} (h : mPh a = mPh b) : a = b := by
  rw [mPh, mPh, List.cons.injEq] at h
  exact natStr_inj h.2

theorem mPh_filter_pass (n : Nat) :
    ((['m']).isPrefixOf (mPh n) && !((quoteC :: ['m']).isPrefixOf (mPh n))) = true := by
  rw [mPh]
  have h1 : (['m']).isPrefixOf ('m' :: natStr n) = true := by
    simp [List.isPrefixOf]
  have h2 : (quoteC :: ['m']).isPrefixOf ('m' :: natStr n) = false :=
    isPrefixOf_head_ne (by decide)
  rw [h1, h2]
  rfl

/-! ### The session invariant of a clean run -/

/-- State reached by masking clean identifier tokens only: every mapping
value is a bare identifier placeholder below the counter, every key is a
nonempty non-placeholder word, and values are pairwise distinct. -/
def CleanSt (st : MState) : Prop :=
  1 ≤ st.counter ∧
  (∀ q ∈ st.mapping, ∃ n, 1 ≤ n ∧ n < st.counter ∧ q.2 = mPh n) ∧
  (∀ q ∈ st.mapping, q.1 ≠ [] ∧ (∀ c ∈ q.1, isWordC c = true) ∧ mShaped q.1 = false) ∧
  List.Pairwise (fun a b : Lch × Lch => a.2 ≠ b.2) st.mapping

theorem cleanSt_fresh : CleanSt fresh :=
  ⟨le_refl 1, fun _ h => (nomatch h), fun _ h => (nomatch h), List.Pairwise.nil⟩

theorem lookupOrAssign_clean {st : MState} (hst : CleanSt st) {k : Lch}
    (hk1 : k ≠ []) (hk2 : ∀ c ∈ k, isWordC c = true) (hk3 : mShaped k = false) :
    CleanSt (lookupOrAssign st k mPh).2 ∧
    ∃ n, (lookupOrAssign st k mPh).1 = mPh n ∧
      (k, mPh n) ∈ (lookupOrAssign st k mPh).2.mapping := by
  obtain ⟨hc, hv, hkk, hp⟩ := hst
  rw [lookupOrAssign]
  match h : mlookup st.mapping k with
  | some v =>
      have hmem := mlookup_mem h
      obtain ⟨n, _, _, hn3⟩ := hv (k, v) hmem
      have hv3 : v = mPh n := hn3
      refine ⟨⟨hc, hv, hkk, hp⟩, n, hv3, ?_⟩
      show (k, mPh n) ∈ st.mapping
      rw [← hv3]
      exact hmem
  | none =>
      refine ⟨⟨?_, ?_, ?_, ?_⟩, st.counter, rfl, ?_⟩
      · exact Nat.le_succ_of_le hc
      · intro q hq
        rcases List.mem_append.1 hq with hq | hq
        · obtain ⟨n, hn1, hn2, hn3⟩ := hv q hq
          exact ⟨n, hn1, Nat.lt_succ_of_lt hn2, hn3⟩
        · rw [List.mem_singleton] at hq
          subst hq
          exact ⟨st.counter, hc, Nat.lt_succ_self _, rfl⟩
      · intro q hq
        rcases List.mem_append.1 hq with hq | hq
        · exact hkk q hq
        · rw [List.mem_singleton] at hq
          subst hq
          exact ⟨hk1, hk2, hk3⟩
      · refine List.pairwise_append.2 ⟨hp, List.pairwise_singleton _ _, ?_⟩
        intro a ha b hb
        rw [List.mem_singleton] at hb
        subst hb
        obtain ⟨n, _, hn2, hn3⟩ := hv a ha
        rw [hn3]
        intro hcon
        have := mPh_inj hcon
        omega
      · show (k, mPh st.counter) ∈ st.mapping ++ [(k, mPh st.counter)]
        exact List.mem_append.2 (Or.inr (List.mem_singleton.2 rfl))

theorem maskParts_clean :
    ∀ (ps : List Lch) (st : MState), CleanSt st →
      (∀ p ∈ ps, cleanPart p = true) →
      CleanSt (maskParts st ps).2 ∧
      List.Forall₂ (fun o p => (o = p ∧ mShaped o = false) ∨
        ((p, o) ∈ (maskParts st ps).2.mapping ∧ ∃ n, o = mPh n))
        (maskParts st ps).1 ps := by
  intro ps
  induction ps with
  | nil =>
      intro st hst _
      exact ⟨hst, List.Forall₂.nil⟩
  | cons p ps ih =>
      intro st hst hcl
      obtain ⟨hp1, hp2, hp3⟩ := cleanPart_spec (hcl p (List.mem_cons_self _ _))
      by_cases hkw : isKeyword p = true
      · rw [maskParts_cons_kw ps hkw]
        obtain ⟨hst2, hf⟩ := ih st hst (fun x hx => hcl x (List.mem_cons_of_mem _ hx))
        exact ⟨hst2, List.Forall₂.cons (Or.inl ⟨rfl, hp3⟩) hf⟩
      · rw [maskParts_cons_nkw ps hkw]
        obtain ⟨hstL, n, hout, hmem⟩ := lookupOrAssign_clean hst hp1 hp2 hp3
        obtain ⟨hst2, hf⟩ := ih (lookupOrAssign st p mPh).2 hstL
          (fun x hx => hcl x (List.mem_cons_of_mem _ hx))
        refine ⟨hst2, List.Forall₂.cons (Or.inr ⟨?_, n, hout⟩) hf⟩
        obtain ⟨Δ, hΔ, _⟩ := maskParts_grow ps (lookupOrAssign st p mPh).2
        rw [hout, hΔ]
        exact List.mem_append.2 (Or.inl hmem)

/-! ### The comment and string passes of `decode` on identifier-only output -/

theorem fiGo_mem {pat : Lch → Option Lch} :
    ∀ (s : Lch) (n : Nat) (m : Lch), m ∈ fiGo pat n s → ∃ s', pat s' = some m := by
  intro s
  induction s with
  | nil =>
      intro n m hm
      cases n with
      | zero => cases hm
      | succ k => cases hm
  | cons c r ih =>
      intro n m hm
      cases n with
      | succ k => exact ih k m hm
      | zero =>
          rw [fiGo] at hm
          match hp : pat (c :: r) with
          | some m0 =>
              rw [hp] at hm
              rcases List.mem_cons.1 hm with rfl | hm
              · exact ⟨c :: r, hp⟩
              · exact ih _ m hm
          | none =>
              rw [hp] at hm
              exact ih 0 m hm

theorem matchCPat_head {s m : Lch} (h : matchCPat s = some m) :
    m.head? = some '/' ∨ m.head? = some '-' := by
  simp only [matchCPat] at h
  by_cases h9 : ("/*COMMENT").data.isPrefixOf s = true
  · rw [if_pos h9] at h
    by_cases hds : ((s.drop 9).takeWhile isDigitC ≠ [] ∧
        ("*/").data.isPrefixOf ((s.drop 9).drop ((s.drop 9).takeWhile isDigitC).length))
    · rw [if_pos hds] at h
      rw [show (match some (("/*COMMENT").data ++ (s.drop 9).takeWhile isDigitC ++
          ("*/").data) with
        | some m0 => some m0
        | none =>
          if ("--COMMENT").data.isPrefixOf s = true then
            if (s.drop 9).takeWhile isDigitC ≠ [] then
              some (("--COMMENT").data ++ (s.drop 9).takeWhile isDigitC)
            else none
          else none) = some (("/*COMMENT").data ++ (s.drop 9).takeWhile isDigitC ++
            ("*/").data) from rfl, Option.some.injEq] at h
      left
      rw [← h]
      rfl
    · rw [if_neg hds] at h
      by_cases hm : ("--COMMENT").data.isPrefixOf s = true
      · rw [if_pos hm] at h
        by_cases hne : (s.drop 9).takeWhile isDigitC ≠ []
        · rw [if_pos hne, Option.some.injEq] at h
          right
          rw [← h]
          rfl
        · rw [if_neg hne] at h
          cases h
      · rw [if_neg hm] at h
        cases h
  · rw [if_neg h9] at h
    by_cases hm : ("--COMMENT").data.isPrefixOf s = true
    · rw [if_pos hm] at h
      by_cases hne : (s.drop 9).takeWhile isDigitC ≠ []
      · rw [if_pos hne, Option.some.injEq] at h
        right
        rw [← h]
        rfl
      · rw [if_neg hne] at h
        cases h
    · rw [if_neg hm] at h
      cases h

theorem matchSPat_head {s m : Lch} (h : matchSPat s = some m) :
    m.head? = some quoteC := by
  simp only [matchSPat] at h
  by_cases h1 : (quoteC :: ['m']).isPrefixOf s = true
  · rw [if_pos h1] at h
    by_cases h2 : ((s.drop 2).takeWhile isDigitC ≠ [] ∧
        [quoteC].isPrefixOf (s.drop (2 + ((s.drop 2).takeWhile isDigitC).length)))
    · rw [if_pos h2, Option.some.injEq] at h
      rw [← h]
      rfl
    · rw [if_neg h2] at h
      cases h
  · rw [if_neg h1] at h
    cases h

theorem foldl_replace_noop {rev : List (Lch × Lch)} :
    ∀ (ms : List Lch) (r0 : Lch), (∀ mk ∈ ms, mlookup rev mk = none) →
      ms.foldl (fun r mk => match mlookup rev mk with
        | some o => pyReplace r mk o
        | none => r) r0 = r0 := by
  intro ms
  induction ms with
  | nil => intro r0 _; rfl
  | cons mk ms ih =>
      intro r0 hnone
      rw [List.foldl_cons]
      have h0 := hnone mk (List.mem_cons_self _ _)
      simp only [h0]
      exact ih r0 (fun x hx => hnone x (List.mem_cons_of_mem _ hx))


/-! ### No two adjacent identifier tokens -/

theorem dropTrailingDots_decomp (l : Lch) :
    ∃ u, l = dropTrailingDots l ++ u ∧ ∀ c ∈ u, c = '.' := by
  refine ⟨(l.reverse.takeWhile (fun c => c == '.')).reverse, ?_, ?_⟩
  · rw [dropTrailingDots, ← List.reverse_append, List.takeWhile_append_dropWhile,
      List.reverse_reverse]
  · intro c hc
    have := List.mem_takeWhile_imp (List.mem_reverse.1 hc)
    simpa using this

theorem identStartC_dot : identStartC '.' = false := by decide

theorem tryIdent_rest_head {s t rest : Lch} (h : tryIdent s = some (t, rest)) :
    ∀ c, rest.head? = some c → identStartC c = false := by
  match s with
  | [] => simp [tryIdent] at h
  | a :: r =>
      rw [tryIdent] at h
      by_cases ha : identStartC a
      · rw [if_pos ha] at h
        simp only [Option.some.injEq, Prod.mk.injEq] at h
        obtain ⟨rfl, rfl⟩ := h
        intro c hc
        obtain ⟨u, hu, hud⟩ := dropTrailingDots_decomp (a :: r.takeWhile identContC)
        have hsplit : a :: r =
            dropTrailingDots (a :: r.takeWhile identContC) ++
              (u ++ r.dropWhile identContC) := by
          conv_lhs => rw [show a :: r =
            (a :: r.takeWhile identContC) ++ r.dropWhile identContC from by
              rw [List.cons_append, List.takeWhile_append_dropWhile]]
          rw [← List.append_assoc, ← hu]
        rw [hsplit, List.drop_left] at hc
        match u, hud with
        | [], _ =>
            rw [List.nil_append] at hc
            have hcont := head?_dropWhile r hc
            by_cases hs : identStartC c = true
            · rw [identStartC_cont hs] at hcont
              cases hcont
            · simpa using hs
        | d :: u', hud =>
            rw [List.cons_append, List.head?_cons, Option.some.injEq] at hc
            rw [← hc, hud d (List.mem_cons_self _ _)]
            exact identStartC_dot
      · rw [if_neg ha] at h
        cases h

theorem matchTok_ident_rest {s : Lch} (h : (matchTok s).1 = TKind.ident) :
    ∀ c, (matchTok s).2.2.head? = some c → identStartC c = false := by
  match s with
  | [] => exact absurd h (by rw [matchTok]; exact fun hh => TKind.noConfusion hh)
  | c0 :: r =>
      revert h
      rw [matchTok]
      match h1 : tryBlock (c0 :: r) with
      | some (t, rest) => exact fun h => TKind.noConfusion h
      | none =>
      match h2 : tryLine (c0 :: r) with
      | some (t, rest) => exact fun h => TKind.noConfusion h
      | none =>
      match h3 : tryStr (c0 :: r) with
      | some (t, rest) => exact fun h => TKind.noConfusion h
      | none =>
      match h4 : tryIdent (c0 :: r) with
      | some (t, rest) => exact fun _ => tryIdent_rest_head h4
      | none =>
      match h5 : tryWs (c0 :: r) with
      | some (t, rest) => exact fun h => TKind.noConfusion h
      | none =>
      match h6 : tryPunct (c0 :: r) with
      | some (t, rest) => exact fun h => TKind.noConfusion h
      | none => exact fun h => TKind.noConfusion h

theorem tokenize_ident_chain (s : Lch) :
    List.Chain' (fun t u : Token => t.1 = TKind.ident → u.1 ≠ TKind.ident) (tokenize s) := by
  have H : ∀ n (s : Lch), s.length ≤ n →
      List.Chain' (fun t u : Token => t.1 = TKind.ident → u.1 ≠ TKind.ident) (tokenize s) := by
    intro n
    induction n with
    | zero =>
        intro s hs
        match s, hs with
        | [], _ => exact List.chain'_nil
    | succ n ih =>
        intro s hs
        match s with
        | [] => exact List.chain'_nil
        | c :: r =>
            obtain ⟨hcat, hne⟩ := matchTok_spec (s := c :: r) (by simp)
            rw [tokenize_cons (by simp), List.chain'_cons']
            have hrlen : (matchTok (c :: r)).2.2.length ≤ n := by
              have hlen : 0 < (matchTok (c :: r)).2.1.length := List.length_pos.2 hne
              have := congrArg List.length hcat
              rw [List.length_append] at this
              simp only [List.length_cons] at this hs
              omega
            refine ⟨?_, ih _ hrlen⟩
            intro u hu hident hident2
            have hrestne : (matchTok (c :: r)).2.2 ≠ [] := by
              intro hnil
              rw [hnil] at hu
              simp [tokenize, tkGo] at hu
            rw [tokenize_cons hrestne] at hu
            rw [List.head?_cons, Option.mem_def, Option.some.injEq] at hu
            have hok := matchTok_TokOK hrestne
            rw [← hu] at hident2
            rw [hident2] at hok
            obtain ⟨htne, _, ⟨ch, hch, hstart⟩, _⟩ := hok
            obtain ⟨hcat2, hne2⟩ := matchTok_spec hrestne
            have hhead : (matchTok (c :: r)).2.2.head? = some ch := by
              obtain ⟨a0, t0, h0⟩ := List.exists_cons_of_ne_nil hne2
              rw [h0, List.head?_cons, Option.some.injEq] at hch
              rw [← hcat2, h0, List.cons_append, List.head?_cons, hch]
            have := matchTok_ident_rest hident ch hhead
            rw [hstart] at this
            cases this
  exact H s.length s le_rfl

theorem segsOK_append {l1 l2 : List Seg} (h1 : SegsOK l1) (h2 : SegsOK l2)
    (hb : ∀ a b, l1.getLast? = some a → l2.head? = some b →
      isWordSeg a → isWordSeg b → False) :
    SegsOK (l1 ++ l2) := by
  refine ⟨?_, ?_⟩
  · intro sg hsg
    rcases List.mem_append.1 hsg with h | h
    · exact h1.1 sg h
    · exact h2.1 sg h
  · rw [List.chain'_append]
    refine ⟨h1.2, h2.2, ?_⟩
    intro x hx y hy
    exact hb x y hx hy

/-! ### The encode pass over clean tokens, segment by segment -/

theorem encodeToks_clean :
    ∀ (toks : List Token) (st : MState), CleanSt st →
      (∀ t ∈ toks, CleanTok t = true) →
      (∀ t ∈ toks, TokOK t) →
      List.Chain' (fun t u : Token => t.1 = TKind.ident → u.1 ≠ TKind.ident) toks →
      CleanSt (encodeToks st toks).2 ∧
      (∃ Δ, (encodeToks st toks).2.mapping = st.mapping ++ Δ) ∧
      ∃ segs : List Seg,
        flatS segs = (encodeToks st toks).1 ∧
        SegsOK segs ∧
        (∀ sg, segs.head? = some sg → isWordSeg sg →
          ∃ w, toks.head? = some (TKind.ident, w)) ∧
        (∀ w, Seg.word w ∈ segs → mShaped w = false ∨
          ∃ k, (k, w) ∈ (encodeToks st toks).2.mapping) ∧
        (∀ rev L,
          (∀ k v, (k, v) ∈ (encodeToks st toks).2.mapping →
            mlookup rev v = some k ∧ v ∈ L) →
          (∀ m ∈ L, mShaped m = true) →
          flatS (restoreSegs rev L segs) = catTexts toks) := by
  intro toks
  induction toks with
  | nil =>
      intro st hst _ _ _
      refine ⟨hst, ⟨[], (List.append_nil st.mapping).symm⟩, [], rfl,
        ⟨fun _ h => (nomatch h), List.chain'_nil⟩,
        ?_, ?_, ?_⟩
      · intro sg hsg
        cases hsg
      · intro w hw
        cases hw
      · intro rev L _ _
        rfl
  | cons tok toks ih =>
      intro st hst hclean htok hchain
      obtain ⟨kind, v⟩ := tok
      have hcleanT := fun t ht => hclean t (List.mem_cons_of_mem _ ht)
      have htokT := fun t ht => htok t (List.mem_cons_of_mem _ ht)
      obtain ⟨hadj, hchainT⟩ := List.chain'_cons'.1 hchain
      have hcl1 := hclean (kind, v) (List.mem_cons_self _ _)
      have htok1 := htok (kind, v) (List.mem_cons_self _ _)
      match kind with
      | TKind.comment =>
          exact absurd hcl1 (by
            rw [show CleanTok (TKind.comment, v) = false from rfl]
            exact Bool.false_ne_true)
      | TKind.strlit =>
          exact absurd hcl1 (by
            rw [show CleanTok (TKind.strlit, v) = false from rfl]
            exact Bool.false_ne_true)
      | TKind.other =>
          exact absurd hcl1 (by
            rw [show CleanTok (TKind.other, v) = false from rfl]
            exact Bool.false_ne_true)
      | TKind.ws =>
          obtain ⟨hst2, ⟨Δ, hΔ⟩, segs, hflat, hok, hhead, hword, hrest⟩ :=
            ih st hst hcleanT htokT hchainT
          obtain ⟨hvne, hvsp⟩ := htok1
          refine ⟨hst2, ⟨Δ, hΔ⟩, Seg.sep v :: segs, ?_, ?_, ?_, ?_, ?_⟩
          · show flatS (Seg.sep v :: segs) = v ++ (encodeToks st toks).1
            rw [flatS_cons, hflat]
            rfl
          · refine ⟨?_, ?_⟩
            · intro sg hsg
              rcases List.mem_cons.1 hsg with rfl | hsg
              · exact ⟨hvne, fun c hc => isSpace_not_word (hvsp c hc)⟩
              · exact hok.1 sg hsg
            · rw [List.chain'_cons']
              refine ⟨?_, hok.2⟩
              intro sg _ hwa _
              exact False.elim hwa
          · intro sg hs hw
            rw [List.head?_cons, Option.some.injEq] at hs
            rw [← hs] at hw
            exact False.elim hw
          · intro w hw
            rcases List.mem_cons.1 hw with hcon | hw
            · exact Seg.noConfusion hcon
            · exact hword w hw
          · intro rev L hL hLm
            show flatS (restoreSegs rev L (Seg.sep v :: segs)) = v ++ catTexts toks
            rw [show restoreSegs rev L (Seg.sep v :: segs) =
                Seg.sep v :: restoreSegs rev L segs from rfl,
              flatS_cons, hrest rev L hL hLm]
            rfl
      | TKind.punct =>
          obtain ⟨hst2, ⟨Δ, hΔ⟩, segs, hflat, hok, hhead, hword, hrest⟩ :=
            ih st hst hcleanT htokT hchainT
          obtain ⟨c, hvc, hcp⟩ := htok1
          refine ⟨hst2, ⟨Δ, hΔ⟩, Seg.sep v :: segs, ?_, ?_, ?_, ?_, ?_⟩
          · show flatS (Seg.sep v :: segs) = v ++ (encodeToks st toks).1
            rw [flatS_cons, hflat]
            rfl
          · refine ⟨?_, ?_⟩
            · intro sg hsg
              rcases List.mem_cons.1 hsg with rfl | hsg
              · refine ⟨by rw [hvc]; simp, ?_⟩
                intro x hx
                rw [hvc, List.mem_singleton] at hx
                rw [hx]
                exact punct_not_word hcp
              · exact hok.1 sg hsg
            · rw [List.chain'_cons']
              refine ⟨?_, hok.2⟩
              intro sg _ hwa _
              exact False.elim hwa
          · intro sg hs hw
            rw [List.head?_cons, Option.some.injEq] at hs
            rw [← hs] at hw
            exact False.elim hw
          · intro w hw
            rcases List.mem_cons.1 hw with hcon | hw
            · exact Seg.noConfusion hcon
            · exact hword w hw
          · intro rev L hL hLm
            show flatS (restoreSegs rev L (Seg.sep v :: segs)) = v ++ catTexts toks
            rw [show restoreSegs rev L (Seg.sep v :: segs) =
                Seg.sep v :: restoreSegs rev L segs from rfl,
              flatS_cons, hrest rev L hL hLm]
            rfl
      | TKind.ident =>
          have hparts : ∀ p ∈ v.splitOn '.', cleanPart p = true := by
            intro p hp
            exact List.all_eq_true.1 (by rw [← show CleanTok (TKind.ident, v) =
              (v.splitOn '.').all cleanPart from rfl]; exact hcl1) p hp
          by_cases hkw : isKeyword v = true
          · -- keyword identifier: emitted verbatim
            rw [encodeToks_cons, maskToken_ident_kw hkw]
            obtain ⟨hst2, ⟨Δ, hΔ⟩, segs, hflat, hok, hhead, hword, hrest⟩ :=
              ih st hst hcleanT htokT hchainT
            refine ⟨hst2, ⟨Δ, hΔ⟩, dottedSegs (v.splitOn '.') ++ segs, ?_, ?_, ?_, ?_, ?_⟩
            · show flatS (dottedSegs (v.splitOn '.') ++ segs) =
                v ++ (encodeToks st toks).1
              rw [flatS_append, hflat, flatS_dottedSegs, List.intercalate_splitOn v '.']
            · refine segsOK_append (dottedSegs_ok ?_) hok ?_
              · intro p hp
                obtain ⟨h1, h2, _⟩ := cleanPart_spec (hparts p hp)
                exact ⟨h1, h2⟩
              · intro a b _ hb _ hwb
                obtain ⟨w', hw'⟩ := hhead b hb hwb
                exact hadj (TKind.ident, w') (Option.mem_def.2 hw') rfl rfl
            · intro sg _ _
              exact ⟨v, rfl⟩
            · intro w hw
              rcases List.mem_append.1 hw with hw | hw
              · exact Or.inl (cleanPart_spec (hparts w (dottedSegs_word_mem hw))).2.2
              · rcases hword w hw with h | ⟨k, hk⟩
                · exact Or.inl h
                · exact Or.inr ⟨k, hk⟩
            · intro rev L hL hLm
              show flatS (restoreSegs rev L (dottedSegs (v.splitOn '.') ++ segs)) =
                v ++ catTexts toks
              rw [restoreSegs_append, flatS_append, hrest rev L hL hLm,
                restoreSegs_dottedSegs]
              have hmap : (v.splitOn '.').map (restoreW rev L) = v.splitOn '.' := by
                rw [List.map_congr_left (fun p hp => ?_), List.map_id]
                have h3 := (cleanPart_spec (hparts p hp)).2.2
                rw [restoreW, if_neg (fun hin => by rw [hLm p hin] at h3; cases h3)]
                rfl
              rw [hmap, flatS_dottedSegs, List.intercalate_splitOn v '.']
          · by_cases hl : (v.splitOn '.').length > 1
            · -- qualified name: mask the parts independently
              rw [encodeToks_cons, maskToken_ident_multi hkw hl]
              obtain ⟨hstM, hf⟩ := maskParts_clean (v.splitOn '.') st hst hparts
              obtain ⟨hst2, ⟨Δ2, hΔ2⟩, segs, hflat, hok, hhead, hword, hrest⟩ :=
                ih (maskParts st (v.splitOn '.')).2 hstM hcleanT htokT hchainT
              obtain ⟨Δ1, hΔ1, _⟩ := maskParts_grow (v.splitOn '.') st
              have hofacts : ∀ o ∈ (maskParts st (v.splitOn '.')).1,
                  o ≠ [] ∧ ∀ c ∈ o, isWordC c = true := by
                intro o ho
                obtain ⟨p, hp, hop⟩ := forall₂_mem_left hf o ho
                rcases hop with ⟨rfl, _⟩ | ⟨_, n, rfl⟩
                · obtain ⟨h1, h2, _⟩ := cleanPart_spec (hparts o hp)
                  exact ⟨h1, h2⟩
                · exact mShaped_all_word (mShaped_mPh n)
              refine ⟨hst2, ⟨Δ1 ++ Δ2, by rw [hΔ2, hΔ1, List.append_assoc]⟩,
                dottedSegs (maskParts st (v.splitOn '.')).1 ++ segs, ?_, ?_, ?_, ?_, ?_⟩
              · show flatS (dottedSegs (maskParts st (v.splitOn '.')).1 ++ segs) =
                  List.intercalate ['.'] (maskParts st (v.splitOn '.')).1 ++
                    (encodeToks (maskParts st (v.splitOn '.')).2 toks).1
                rw [flatS_append, hflat, flatS_dottedSegs]
              · refine segsOK_append (dottedSegs_ok hofacts) hok ?_
                intro a b _ hb _ hwb
                obtain ⟨w', hw'⟩ := hhead b hb hwb
                exact hadj (TKind.ident, w') (Option.mem_def.2 hw') rfl rfl
              · intro sg _ _
                exact ⟨v, rfl⟩
              · intro w hw
                rcases List.mem_append.1 hw with hw | hw
                · obtain ⟨p, hp, hop⟩ := forall₂_mem_left hf w (dottedSegs_word_mem hw)
                  rcases hop with ⟨_, hsh⟩ | ⟨hmem, _⟩
                  · exact Or.inl hsh
                  · refine Or.inr ⟨p, ?_⟩
                    show (p, w) ∈ (encodeToks (maskParts st (v.splitOn '.')).2 toks).2.mapping
                    rw [hΔ2]
                    exact List.mem_append.2 (Or.inl hmem)
                · rcases hword w hw with h | ⟨k, hk⟩
                  · exact Or.inl h
                  · exact Or.inr ⟨k, hk⟩
              · intro rev L hL hLm
                show flatS (restoreSegs rev L
                    (dottedSegs (maskParts st (v.splitOn '.')).1 ++ segs)) =
                  v ++ catTexts toks
                rw [restoreSegs_append, flatS_append, hrest rev L hL hLm,
                  restoreSegs_dottedSegs]
                have hmap : ((maskParts st (v.splitOn '.')).1).map (restoreW rev L) =
                    v.splitOn '.' :=
                  forall₂_map_eq (hf.imp (fun {o p} hop => by
                    rcases hop with ⟨rfl, hsh⟩ | ⟨hmem, n, rfl⟩
                    · rw [restoreW, if_neg (fun hin => by rw [hLm o hin] at hsh; cases hsh)]
                    · have hmem2 : (p, mPh n) ∈
                          (encodeToks (maskParts st (v.splitOn '.')).2 toks).2.mapping := by
                        rw [hΔ2]
                        exact List.mem_append.2 (Or.inl hmem)
                      obtain ⟨hlk, hin⟩ := hL p (mPh n) hmem2
                      rw [restoreW, if_pos hin, hlk]
                      rfl))
                rw [hmap, flatS_dottedSegs, List.intercalate_splitOn v '.']
            · -- unqualified identifier: a single placeholder
              rw [encodeToks_cons, maskToken_ident_single hkw hl]
              have hv1 : v.splitOn '.' = [v] := splitOn_single hl
              obtain ⟨hp1, hp2, hp3⟩ := cleanPart_spec (hparts v (by
                rw [hv1]; exact List.mem_singleton.2 rfl))
              obtain ⟨hstL, n, hout, hmem⟩ := lookupOrAssign_clean hst hp1 hp2 hp3
              obtain ⟨hst2, ⟨Δ2, hΔ2⟩, segs, hflat, hok, hhead, hword, hrest⟩ :=
                ih (lookupOrAssign st v mPh).2 hstL hcleanT htokT hchainT
              obtain ⟨Δ1, hΔ1, _⟩ := lookupOrAssign_grow st v mPh
              have hmem2 : (v, mPh n) ∈
                  (encodeToks (lookupOrAssign st v mPh).2 toks).2.mapping := by
                rw [hΔ2]
                exact List.mem_append.2 (Or.inl hmem)
              refine ⟨hst2, ⟨Δ1 ++ Δ2, by rw [hΔ2, hΔ1, List.append_assoc]⟩,
                Seg.word (lookupOrAssign st v mPh).1 :: segs, ?_, ?_, ?_, ?_, ?_⟩
              · show flatS (Seg.word (lookupOrAssign st v mPh).1 :: segs) =
                  (lookupOrAssign st v mPh).1 ++
                    (encodeToks (lookupOrAssign st v mPh).2 toks).1
                rw [flatS_cons, hflat]
                rfl
              · refine ⟨?_, ?_⟩
                · intro sg hsg
                  rcases List.mem_cons.1 hsg with rfl | hsg
                  · rw [hout]
                    exact mShaped_all_word (mShaped_mPh n)
                  · exact hok.1 sg hsg
                · rw [List.chain'_cons']
                  refine ⟨?_, hok.2⟩
                  intro sg hs _ hwb
                  obtain ⟨w', hw'⟩ := hhead sg (by
                    rwa [Option.mem_def] at hs) hwb
                  exact hadj (TKind.ident, w') (Option.mem_def.2 hw') rfl rfl
              · intro sg _ _
                exact ⟨v, rfl⟩
              · intro w hw
                rcases List.mem_cons.1 hw with hcon | hw
                · injection hcon with h2
                  refine Or.inr ⟨v, ?_⟩
                  rw [h2, hout]
                  exact hmem2
                · rcases hword w hw with h | ⟨k, hk⟩
                  · exact Or.inl h
                  · exact Or.inr ⟨k, hk⟩
              · intro rev L hL hLm
                show flatS (restoreSegs rev L
                    (Seg.word (lookupOrAssign st v mPh).1 :: segs)) =
                  v ++ catTexts toks
                obtain ⟨hlk, hin⟩ := hL v (mPh n) hmem2
                rw [show restoreSegs rev L
                      (Seg.word (lookupOrAssign st v mPh).1 :: segs) =
                    Seg.word (restoreW rev L (lookupOrAssign st v mPh).1) ::
                      restoreSegs rev L segs from rfl,
                  flatS_cons, hrest rev L hL hLm, hout, restoreW, if_pos hin, hlk]
                rfl

/-! ### The reverse mapping of a clean session -/

theorem clean_map_lookup {M : List (Lch × Lch)}
    (hv : ∀ q ∈ M, ∃ n, q.2 = mPh n)
    (hp : List.Pairwise (fun a b : Lch × Lch => a.2 ≠ b.2) M) :
    ∀ k v, (k, v) ∈ M →
      mlookup (revMap M) v = some k ∧
      v ∈ sortDesc (((revMap M).map (fun p => p.1)).filter
        (fun m => (['m']).isPrefixOf m && !((quoteC :: ['m']).isPrefixOf m))) := by
  intro k v hmem
  have hlk : mlookup (revMap M) v = some k :=
    revMap_lookup hmem (fun q hq hqv => by
      rw [pairwise_val_inj hp hmem hq hqv])
  refine ⟨hlk, ?_⟩
  have hrev : (v, k) ∈ revMap M := mlookup_mem hlk
  have hkeys : v ∈ (revMap M).map (fun p => p.1) := List.mem_map.2 ⟨(v, k), hrev, rfl⟩
  obtain ⟨n, hn⟩ := hv (k, v) hmem
  have hv2 : v = mPh n := hn
  refine ((sortDesc_perm _).mem_iff).2 (List.mem_filter.2 ⟨hkeys, ?_⟩)
  rw [hv2]
  exact mPh_filter_pass n

theorem clean_map_masks {M : List (Lch × Lch)}
    (hv : ∀ q ∈ M, ∃ n, q.2 = mPh n)
    (hk : ∀ q ∈ M, q.1 ≠ [] ∧ (∀ c ∈ q.1, isWordC c = true) ∧ mShaped q.1 = false) :
    ∀ mk ∈ sortDesc (((revMap M).map (fun p => p.1)).filter
        (fun m => (['m']).isPrefixOf m && !((quoteC :: ['m']).isPrefixOf m))),
      mShaped mk = true ∧
      ∃ o, mlookup (revMap M) mk = some o ∧ o ≠ [] ∧
        (∀ c ∈ o, isWordC c = true) ∧ mShaped o = false := by
  intro mk hmk
  have hmk2 := ((sortDesc_perm _).mem_iff).1 hmk
  obtain ⟨hkeys, _⟩ := List.mem_filter.1 hmk2
  obtain ⟨q, hq, hq1⟩ := List.mem_map.1 hkeys
  obtain ⟨o, ho⟩ := mlookup_of_mem_keys ⟨q, hq, hq1⟩
  have hrev : (mk, o) ∈ revMap M := mlookup_mem ho
  obtain ⟨p, hpM, hpe⟩ := revMap_mem hrev
  have hmk3 : mk = p.2 := congrArg Prod.fst hpe
  have ho2 : o = p.1 := congrArg Prod.snd hpe
  obtain ⟨n, hn⟩ := hv p hpM
  obtain ⟨h1, h2, h3⟩ := hk p hpM
  refine ⟨by rw [hmk3, hn]; exact mShaped_mPh n, o, ho, ?_, ?_, ?_⟩
  · rw [ho2]
    exact h1
  · intro c hc
    rw [ho2] at hc
    exact h2 c hc
  · rw [ho2]
    exact h3

theorem clean_rev_keys {M : List (Lch × Lch)} (hv : ∀ q ∈ M, ∃ n, q.2 = mPh n) :
    ∀ q ∈ revMap M, ∃ n, q.1 = mPh n := by
  intro q hq
  obtain ⟨p, hpM, hpe⟩ := revMap_mem hq
  obtain ⟨n, hn⟩ := hv p hpM
  exact ⟨n, by rw [congrArg Prod.fst hpe]; exact hn⟩

theorem pass_noop_cpat {M : List (Lch × Lch)}
    (hq : ∀ q ∈ revMap M, ∃ n, q.1 = mPh n) (s0 r0 : Lch) :
    (finditer matchCPat s0).foldl (fun r mk => match mlookup (revMap M) mk with
      | some o => pyReplace r mk o
      | none => r) r0 = r0 := by
  refine foldl_replace_noop _ r0 ?_
  intro mk hmk
  obtain ⟨s', hs'⟩ := fiGo_mem s0 0 mk hmk
  refine mlookup_none_of_keys ?_
  intro q hqq heq
  obtain ⟨n, hn⟩ := hq q hqq
  have hmhead : mk.head? = some 'm' := by
    rw [← heq, hn]
    exact mPh_head n
  rcases matchCPat_head hs' with hh | hh
  · rw [hmhead] at hh
    simp at hh
  · rw [hmhead] at hh
    simp at hh

theorem pass_noop_spat {M : List (Lch × Lch)}
    (hq : ∀ q ∈ revMap M, ∃ n, q.1 = mPh n) (s0 r0 : Lch) :
    (finditer matchSPat s0).foldl (fun r mk => match mlookup (revMap M) mk with
      | some o => pyReplace r mk o
      | none => r) r0 = r0 := by
  refine foldl_replace_noop _ r0 ?_
  intro mk hmk
  obtain ⟨s', hs'⟩ := fiGo_mem s0 0 mk hmk
  refine mlookup_none_of_keys ?_
  intro q hqq heq
  obtain ⟨n, hn⟩ := hq q hqq
  have hmhead : mk.head? = some 'm' := by
    rw [← heq, hn]
    exact mPh_head n
  have hh := matchSPat_head hs'
  rw [hmhead] at hh
  simp [quoteC] at hh

theorem decode_def (masked : Lch) (mapping : List (Lch × Lch)) :
    decode masked mapping =
      (sortDesc (((revMap mapping).map (fun p => p.1)).filter
        (fun m => (['m']).isPrefixOf m && !((quoteC :: ['m']).isPrefixOf m)))).foldl
        (fun r mk => match mlookup (revMap mapping) mk with
          | some o => pySubWB mk o r
          | none => r)
        ((finditer matchSPat ((finditer matchCPat masked).foldl
            (fun r mk => match mlookup (revMap mapping) mk with
              | some o => pyReplace r mk o
              | none => r) masked)).foldl
          (fun r mk => match mlookup (revMap mapping) mk with
            | some o => pyReplace r mk o
            | none => r)
          ((finditer matchCPat masked).foldl
            (fun r mk => match mlookup (revMap mapping) mk with
              | some o => pyReplace r mk o
              | none => r) masked)) := rfl

/-- C1 (amended): the round trip `decode (encode s) = s` holds for every
input that tokenizes into whitespace, punctuation and identifiers only,
where every dot-part of every identifier is a nonempty word that is not
itself of the bare placeholder shape `m<digits>`.  (As stated over all
strings the claim is false: `c1_counterexample`.) -/
theorem c1_roundtrip_clean (s : Lch) (h : CleanSql s = true) :
    decode (encode fresh s).1 (encode fresh s).2.mapping = s := by
  have hclean : ∀ t ∈ tokenize s, CleanTok t = true := by
    intro t ht
    exact List.all_eq_true.1 (show (tokenize s).all CleanTok = true from h) t ht
  obtain ⟨hstF, ⟨Δ, hΔ⟩, segs, hflat, hok, hhead, hword, hrest⟩ :=
    encodeToks_clean (tokenize s) fresh cleanSt_fresh hclean
      (tokenize_TokOK s) (tokenize_ident_chain s)
  obtain ⟨hc, hv0, hk0, hp0⟩ := hstF
  have hv : ∀ q ∈ (encodeToks fresh (tokenize s)).2.mapping, ∃ n, q.2 = mPh n :=
    fun q hq => ((hv0 q hq).imp (fun n hn => hn.2.2))
  have hA := clean_map_lookup hv hp0
  have hB := clean_map_masks hv hk0
  have hkr := clean_rev_keys hv
  show decode (encodeToks fresh (tokenize s)).1
    (encodeToks fresh (tokenize s)).2.mapping = s
  rw [decode_def,
    pass_noop_cpat hkr (encodeToks fresh (tokenize s)).1
      (encodeToks fresh (tokenize s)).1,
    pass_noop_spat hkr (encodeToks fresh (tokenize s)).1
      (encodeToks fresh (tokenize s)).1,
    ← hflat,
    foldl_subWB (revMap (encodeToks fresh (tokenize s)).2.mapping) _ segs hok
      (fun mk hmk => hB mk hmk)
      (fun w hw => by
        rcases hword w hw with hsh | ⟨k, hk⟩
        · exact Or.inr hsh
        · exact Or.inl (hA k w hk).2),
    hrest _ _ (fun k v hkv => hA k v hkv) (fun m hm => (hB m hm).1)]
  exact catTexts_tokenize s

/-- C1 counterexample to the claim as stated: on the input `m2 x` the
placeholder `m1` assigned to the identifier `m2` collides with the
placeholder `m2` assigned to `x`, and decoding the masked output `m1 m2`
returns `x x`, not `m2 x`. -/
theorem c1_counterexample :
    decode (encode fresh (("m2 x").data)).1
      (encode fresh (("m2 x").data)).2.mapping ≠ ("m2 x").data := by decide

/-- Witness: a concrete clean input on which the amended round trip holds. -/
theorem c1_witness :
    CleanSql (("a b").data) = true ∧
    decode (encode fresh (("a b").data)).1
      (encode fresh (("a b").data)).2.mapping = ("a b").data :=
  ⟨by decide, c1_roundtrip_clean (("a b").data) (by decide)⟩

end SqlMask
